import Mathlib

/-!
# TriePhonebook: a shallow embedding of `src/code/phonebook.cpp`

The C++ program keeps a trie of `TrieNode`s (each with an
`unordered_map<char, shared_ptr<TrieNode>> children` and a flag `isEndOfWord`)
and a side table `unordered_map<string, string> phoneNumbers`.

Modelling decisions.

* `std::string` is a finite sequence of `char`: `Str := List Char`.
* An `unordered_map` is an association list.  `find` returns the first binding of a
  key, `m[k] = v` overwrites the binding in place or appends a new one, `erase`
  removes the bindings of the key, and iteration follows the list.  The iteration
  order of an `unordered_map` is unspecified; the list order stands for whichever
  order the implementation has.
* `unordered_map::operator[]` used as an rvalue (`current->children[c]`,
  `phoneNumbers[name]`) is *not* a pure lookup: when the key is absent it first
  inserts a value-initialised mapped value (a null `shared_ptr`, an empty string).
  `umIndex` models exactly that and returns the value together with the new map.
* A `shared_ptr<TrieNode>` is `Option TrieNode`; `none` is the null pointer.  The
  trie is a tree (every node is created by `insert` and stored in one parent), so
  it is modelled as a value, and a mutation below a node is written back into the
  parent's `children`.
* Dereferencing a null pointer is undefined behaviour; operations that can do so
  return `Option`, with `none` for that outcome.
* Text written to `cout` is modelled by the data it carries: the number printed by
  `search`, the vector `results` of `autocomplete`, the lines of `printAllEntries`.
  `autocomplete` prints only after its helper has returned, so a null dereference in
  the helper leaves nothing printed.  `printAllEntriesHelper` prints inside the
  traversal, so the lines written before a null dereference stay written: the
  traversal returns the lines written together with whether it completed.
-/

namespace TriePhonebook

/-- A `std::string`. -/
abbrev Str := List Char

/-! ## `unordered_map` -/

/-- The call `m.find(key)`: a lookup that does not modify the map. -/
def umFind {κ ν : Type} [DecidableEq κ] : List (κ × ν) → κ → Option ν
  | [], _ => none
  | (k, v) :: rest, key => if k = key then some v else umFind rest key

/-- The assignment `m[key] = v`: overwrite the binding, or add one. -/
def umAssign {κ ν : Type} [DecidableEq κ] : List (κ × ν) → κ → ν → List (κ × ν)
  | [], key, v => [(key, v)]
  | (k, w) :: rest, key, v =>
    if k = key then (k, v) :: rest else (k, w) :: umAssign rest key v

/-- The call `m.erase(key)`. -/
def umErase {κ ν : Type} [DecidableEq κ] : List (κ × ν) → κ → List (κ × ν)
  | [], _ => []
  | (k, w) :: rest, key =>
    if k = key then umErase rest key else (k, w) :: umErase rest key

/-- The rvalue `m[key]`: the mapped value and the map afterwards.  When `key` is absent
a binding to the value-initialised `dflt` is inserted first. -/
def umIndex {κ ν : Type} [DecidableEq κ] (m : List (κ × ν)) (key : κ) (dflt : ν) :
    ν × List (κ × ν) :=
  match umFind m key with
  | some v => (v, m)
  | none => (dflt, m ++ [(key, dflt)])

/-! ## Data model -/

/-- The class `TrieNode`: `children` maps a character to a (possibly null) child
pointer, `isEndOfWord` is the terminal flag. -/
inductive TrieNode where
  | mk (children : List (Char × Option TrieNode)) (isEndOfWord : Bool)

namespace TrieNode

/-- The member `children`. -/
def children : TrieNode → List (Char × Option TrieNode)
  | mk ch _ => ch

/-- The member `isEndOfWord`. -/
def isEndOfWord : TrieNode → Bool
  | mk _ e => e

/-- The constructor `TrieNode()`: no children, `isEndOfWord = false`. -/
def new : TrieNode := mk [] false

end TrieNode

/-- The class `Phonebook`: the root of the trie and the table `phoneNumbers`. -/
structure Phonebook where
  root : TrieNode
  phoneNumbers : List (Str × Str)

/-! ## Operations -/

/-- The loop and the flag assignment of `Phonebook::insert`, on the subtree at `current`. -/
def insertWalk : TrieNode → Str → TrieNode
  | .mk children _, [] => .mk children true
  | .mk children isEnd, c :: cs =>
    -- `if (!current->children[c])`
    let (p, children1) := umIndex children c none
    -- `current->children[c] = shared_ptr<TrieNode>(new TrieNode)`
    let children2 := if p.isNone then umAssign children1 c (some TrieNode.new) else children1
    -- `current = current->children[c]`
    let child := match p with
      | some n => n
      | none => TrieNode.new
    .mk (umAssign children2 c (some (insertWalk child cs))) isEnd

/-- The loop and the final test of `Phonebook::search` on the subtree at `current`: the
value returned and the subtree afterwards. -/
def searchWalk : TrieNode → Str → Bool × TrieNode
  | .mk children isEnd, [] => (isEnd, .mk children isEnd)
  | .mk children isEnd, c :: cs =>
    -- `if (!current->children[c]) return false;`
    let (p, children1) := umIndex children c none
    match p with
    | none => (false, .mk children1 isEnd)
    | some child =>
      let (found, child1) := searchWalk child cs
      (found, .mk (umAssign children1 c (some child1)) isEnd)

/-- The loop and the flag assignment of `Phonebook::deleteEntry` (lines 68-72): `none` when
`current` becomes null and is dereferenced. -/
def deleteWalk : TrieNode → Str → Option TrieNode
  | .mk children _, [] => some (.mk children false)
  | .mk children isEnd, c :: cs =>
    -- `current = current->children[c]`
    let (p, children1) := umIndex children c none
    match p with
    | none => none
    | some child =>
      match deleteWalk child cs with
      | none => none
      | some child1 => some (.mk (umAssign children1 c (some child1)) isEnd)

/-- The loop of `Phonebook::autocomplete` (lines 79-85): the node reached (`none` for the
early `return`) and the subtree afterwards. -/
def autocompleteWalk : TrieNode → Str → Option TrieNode × TrieNode
  | .mk children isEnd, [] => (some (.mk children isEnd), .mk children isEnd)
  | .mk children isEnd, c :: cs =>
    let (p, children1) := umIndex children c none
    match p with
    | none => (none, .mk children1 isEnd)
    | some child =>
      let (cur, child1) := autocompleteWalk child cs
      (cur, .mk (umAssign children1 c (some child1)) isEnd)

mutual
/-- The function `Phonebook::autocompleteHelper`: `results` after the call, `none` when a
null child is dereferenced. -/
def autocompleteHelper : TrieNode → Str → List Str → Option (List Str)
  | .mk children isEnd, pre, results =>
    autocompleteChildren children pre (if isEnd then results ++ [pre] else results)
/-- The `for` loop of `autocompleteHelper` over the remaining `children`. -/
def autocompleteChildren : List (Char × Option TrieNode) → Str → List Str → Option (List Str)
  | [], _, results => some results
  | (_, none) :: _, _, _ => none
  | (c, some child) :: rest, pre, results =>
    match autocompleteHelper child (pre ++ [c]) results with
    | none => none
    | some results1 => autocompleteChildren rest pre results1
end

mutual
/-- The function `Phonebook::printAllEntriesHelper`: the lines written to `cout` so far,
each a name with its number when `phoneNumbers.find` succeeds, and whether the call
returned (`false` when a null child is dereferenced; the lines written before that stay
written). -/
def printAllEntriesHelper (phoneNumbers : List (Str × Str)) :
    TrieNode → Str → List (Str × Option Str) → List (Str × Option Str) × Bool
  | .mk children isEnd, currentEntry, out =>
    printAllEntriesChildren phoneNumbers children currentEntry
      (if isEnd then out ++ [(currentEntry, umFind phoneNumbers currentEntry)] else out)
/-- The `for` loop of `printAllEntriesHelper` over the remaining `children`. -/
def printAllEntriesChildren (phoneNumbers : List (Str × Str)) :
    List (Char × Option TrieNode) → Str → List (Str × Option Str) →
      List (Str × Option Str) × Bool
  | [], _, out => (out, true)
  | (_, none) :: _, _, out => (out, false)
  | (c, some child) :: rest, currentEntry, out =>
    match printAllEntriesHelper phoneNumbers child (currentEntry ++ [c]) out with
    | (out1, false) => (out1, false)
    | (out1, true) => printAllEntriesChildren phoneNumbers rest currentEntry out1
end

namespace Phonebook

/-- The constructor `Phonebook()`: an empty root and an empty table. -/
def new : Phonebook := ⟨TrieNode.new, []⟩

/-- The method `Phonebook::insert`. -/
def insert (pb : Phonebook) (name number : Str) : Phonebook :=
  ⟨insertWalk pb.root name, umAssign pb.phoneNumbers name number⟩

/-- The method `Phonebook::search`: the value returned, the number printed (if a line is
printed), and the state afterwards. -/
def search (pb : Phonebook) (name : Str) : Bool × Option Str × Phonebook :=
  let (found, root1) := searchWalk pb.root name
  if found then
    -- `cout << ... << phoneNumbers[name]`
    let (number, phoneNumbers1) := umIndex pb.phoneNumbers name []
    (true, some number, ⟨root1, phoneNumbers1⟩)
  else
    (false, none, ⟨root1, pb.phoneNumbers⟩)

/-- The method `Phonebook::deleteEntry`: the value returned and the state afterwards. -/
def deleteEntry (pb : Phonebook) (name : Str) : Option (Bool × Phonebook) :=
  let (found, _, pb1) := search pb name
  if !found then some (false, pb1)
  else
    match deleteWalk pb1.root name with
    | none => none
    | some root2 => some (true, ⟨root2, umErase pb1.phoneNumbers name⟩)

/-- The method `Phonebook::autocomplete`: the vector `results` (empty on the early
`return`, where none is built) and the state afterwards. -/
def autocomplete (pb : Phonebook) (pre : Str) : Option (List Str × Phonebook) :=
  let (cur, root1) := autocompleteWalk pb.root pre
  match cur with
  | none => some ([], ⟨root1, pb.phoneNumbers⟩)
  | some node =>
    match autocompleteHelper node pre [] with
    | none => none
    | some results => some (results, ⟨root1, pb.phoneNumbers⟩)

/-- The method `Phonebook::printAllEntries`: the lines written to `cout`, and the state
afterwards (`none` when a null child is dereferenced). -/
def printAllEntries (pb : Phonebook) : List (Str × Option Str) × Option Phonebook :=
  match printAllEntriesHelper pb.phoneNumbers pb.root [] [] with
  | (out, false) => (out, none)
  | (out, true) => (out, some pb)

end Phonebook

/-! ## Observations used to state the properties -/

/-- The node at the end of the path spelling `name`, through actual (non-null) nodes. -/
def nodeAt : TrieNode → Str → Option TrieNode
  | t, [] => some t
  | .mk children _, c :: cs =>
    match umFind children c with
    | some (some child) => nodeAt child cs
    | _ => none

/-- The path spelling `name` exists and its final node has `isEndOfWord` set. -/
def isTerminalAt (t : TrieNode) (name : Str) : Bool :=
  match nodeAt t name with
  | some n => n.isEndOfWord
  | none => false

/-- States reachable from the empty `Phonebook` by the public methods (a call that
dereferences a null pointer has no state afterwards). -/
inductive Reachable : Phonebook → Prop
  | new : Reachable Phonebook.new
  | insert {pb : Phonebook} (name number : Str) :
      Reachable pb → Reachable (pb.insert name number)
  | search {pb : Phonebook} (name : Str) :
      Reachable pb → Reachable (pb.search name).2.2
  | deleteEntry {pb pb1 : Phonebook} (name : Str) (r : Bool) :
      Reachable pb → pb.deleteEntry name = some (r, pb1) → Reachable pb1
  | autocomplete {pb pb1 : Phonebook} (pre : Str) (results : List Str) :
      Reachable pb → pb.autocomplete pre = some (results, pb1) → Reachable pb1
  | printAllEntries {pb pb1 : Phonebook} (out : List (Str × Option Str)) :
      Reachable pb → pb.printAllEntries = (out, some pb1) → Reachable pb1

/-- The consistency invariant: a name has a number iff it is terminal in the trie. -/
def Consistent (pb : Phonebook) : Prop :=
  ∀ N : Str, (umFind pb.phoneNumbers N).isSome = isTerminalAt pb.root N

/-! ## Well-formedness of a trie -/

mutual
/-- No key of any `children` map in the subtree is bound to a null pointer. -/
def TrieNode.nullFree : TrieNode → Bool
  | .mk children _ => childrenNullFree children
/-- The bindings of a `children` map, for `TrieNode.nullFree`. -/
def childrenNullFree : List (Char × Option TrieNode) → Bool
  | [] => true
  | (_, none) :: _ => false
  | (_, some child) :: rest => child.nullFree && childrenNullFree rest
end

mutual
/-- Every `children` map in the subtree binds each of its keys once (what an
`unordered_map` guarantees). -/
def TrieNode.keysNodup : TrieNode → Bool
  | .mk children _ => decide (children.map Prod.fst).Nodup && childrenKeysNodup children
/-- The bindings of a `children` map, for `TrieNode.keysNodup`. -/
def childrenKeysNodup : List (Char × Option TrieNode) → Bool
  | [] => true
  | (_, none) :: rest => childrenKeysNodup rest
  | (_, some child) :: rest => child.keysNodup && childrenKeysNodup rest
end

mutual
/-- The paths, relative to the node, of the terminal nodes of the subtree, in the order of
the traversal of `autocompleteHelper` and `printAllEntriesHelper`. -/
def terminalPaths : TrieNode → List Str
  | .mk children isEnd => (if isEnd then [[]] else []) ++ childrenPaths children
/-- The terminal paths below the bindings of a `children` map. -/
def childrenPaths : List (Char × Option TrieNode) → List Str
  | [] => []
  | (_, none) :: rest => childrenPaths rest
  | (c, some child) :: rest => (terminalPaths child).map (c :: ·) ++ childrenPaths rest
end

/-- Every map of the state binds each of its keys once. -/
def WellKeyed (pb : Phonebook) : Prop :=
  pb.root.keysNodup = true ∧ (pb.phoneNumbers.map Prod.fst).Nodup

/-! ## Example directories -/

/-- The directory holding only "Alice" and "Bob". -/
def aliceBob : Phonebook :=
  (Phonebook.new.insert "Alice".toList "111".toList).insert "Bob".toList "222".toList

/-- The directory of the concrete scenario: ("Ann","100"), ("Anna","200"), ("Bob","300"). -/
def annAnnaBob : Phonebook :=
  ((Phonebook.new.insert "Ann".toList "100".toList).insert "Anna".toList "200".toList).insert
    "Bob".toList "300".toList

/-- The state after `insert("Ann","100")` and an unsuccessful `search("Anx")`. -/
def annAnx : Phonebook :=
  ((Phonebook.new.insert "Ann".toList "100".toList).search "Anx".toList).2.2

/-- The state after `insert("A","1")` and an unsuccessful `search("AB")`: one chain, the
root, below it the terminal node of "A", below that the key `'B'` bound to null. -/
def aThenAB : Phonebook :=
  ((Phonebook.new.insert "A".toList "1".toList).search "AB".toList).2.2

/-! ## Nodes of a trie -/

mutual
/-- The number of nodes of the subtree (null pointers are not nodes). -/
def nodeCount : TrieNode → Nat
  | .mk children _ => 1 + childrenCount children
/-- The number of nodes below the bindings of a `children` map. -/
def childrenCount : List (Char × Option TrieNode) → Nat
  | [] => 0
  | (_, none) :: rest => childrenCount rest
  | (_, some child) :: rest => nodeCount child + childrenCount rest
end

mutual
/-- The subtree with every terminal flag cleared: its nodes and their `children` maps
(keys, null bindings, order), without the flags. -/
def skeleton : TrieNode → TrieNode
  | .mk children _ => .mk (childrenSkeleton children) false
/-- The bindings of a `children` map, for `skeleton`. -/
def childrenSkeleton : List (Char × Option TrieNode) → List (Char × Option TrieNode)
  | [] => []
  | (c, none) :: rest => (c, none) :: childrenSkeleton rest
  | (c, some child) :: rest => (c, some (skeleton child)) :: childrenSkeleton rest
end

/-- The number of leading characters of `name` whose path exists through actual nodes. -/
def existingPrefixLen : TrieNode → Str → Nat
  | _, [] => 0
  | .mk children _, c :: cs =>
    match umFind children c with
    | some (some child) => 1 + existingPrefixLen child cs
    | _ => 0

/-! ## Sequences of calls, and the plain map they are compared with -/

/-- A call of `insert`, `deleteEntry` or `search`. -/
inductive Op where
  | insert (name number : Str)
  | deleteEntry (name : Str)
  | search (name : Str)

/-- What a call gives back: nothing for `insert`, the returned value for `deleteEntry`, the
returned value and the number printed for `search`. -/
inductive Res where
  | done
  | removed (r : Bool)
  | found (r : Bool) (number : Option Str)
  deriving DecidableEq

/-- The calls `ops` made one after the other on the Phonebook: what each gives back, and
the state at the end (`none` when a call dereferences a null pointer). -/
def runOps : Phonebook → List Op → Option (List Res × Phonebook)
  | pb, [] => some ([], pb)
  | pb, .insert name number :: ops =>
    (runOps (pb.insert name number) ops).map (fun r => (Res.done :: r.1, r.2))
  | pb, .deleteEntry name :: ops =>
    match pb.deleteEntry name with
    | none => none
    | some (r, pb1) => (runOps pb1 ops).map (fun q => (Res.removed r :: q.1, q.2))
  | pb, .search name :: ops =>
    (runOps (pb.search name).2.2 ops).map
      (fun q => (Res.found (pb.search name).1 (pb.search name).2.1 :: q.1, q.2))

/-- The plain name-to-number map of the specification, subjected to the same calls:
`insert` sets the key, `deleteEntry` erases it and reports whether the map held it,
`search` reports the binding. -/
def plainMapRun : (Str → Option Str) → List Op → List Res × (Str → Option Str)
  | m, [] => ([], m)
  | m, .insert name number :: ops =>
    let r := plainMapRun (fun k => if k = name then some number else m k) ops
    (Res.done :: r.1, r.2)
  | m, .deleteEntry name :: ops =>
    let r := plainMapRun (fun k => if k = name then none else m k) ops
    (Res.removed (m name).isSome :: r.1, r.2)
  | m, .search name :: ops =>
    let r := plainMapRun m ops
    (Res.found (m name).isSome (m name) :: r.1, r.2)

/-! ## Lemmas on the `unordered_map` model -/

section UMap
variable {κ ν : Type} [DecidableEq κ]

theorem umFind_umAssign (m : List (κ × ν)) (k k1 : κ) (v : ν) :
    umFind (umAssign m k v) k1 = if k = k1 then some v else umFind m k1 := by
  induction m with
  | nil => simp [umAssign, umFind]
  | cons hd tl ih =>
    obtain ⟨a, b⟩ := hd
    by_cases h : a = k
    · subst h
      by_cases h1 : a = k1 <;> simp [umAssign, umFind, h1]
    · by_cases h1 : a = k1
      · subst h1
        simp [umAssign, umFind, h, Ne.symm h]
      · simp [umAssign, umFind, h, h1, ih]

theorem umFind_append_singleton (m : List (κ × ν)) (k k1 : κ) (d : ν) :
    umFind (m ++ [(k, d)]) k1 =
      match umFind m k1 with
      | some v => some v
      | none => if k = k1 then some d else none := by
  induction m with
  | nil => simp [umFind]
  | cons hd tl ih =>
    obtain ⟨a, b⟩ := hd
    by_cases h1 : a = k1 <;> simp [umFind, h1, ih]

theorem umAssign_of_umFind_none (m : List (κ × ν)) (k : κ) (v : ν)
    (h : umFind m k = none) : umAssign m k v = m ++ [(k, v)] := by
  induction m with
  | nil => simp [umAssign]
  | cons hd tl ih =>
    obtain ⟨a, b⟩ := hd
    by_cases h1 : a = k
    · simp [umFind, h1] at h
    · simp only [umFind, h1, if_false] at h
      simp [umAssign, h1, ih h]

theorem umAssign_append_of_umFind_none (m : List (κ × ν)) (k : κ) (d v : ν)
    (h : umFind m k = none) : umAssign (m ++ [(k, d)]) k v = m ++ [(k, v)] := by
  induction m with
  | nil => simp [umAssign]
  | cons hd tl ih =>
    obtain ⟨a, b⟩ := hd
    by_cases h1 : a = k
    · simp [umFind, h1] at h
    · simp only [umFind, h1, if_false] at h
      simp [umAssign, h1, ih h]

theorem umAssign_umAssign (m : List (κ × ν)) (k : κ) (v w : ν) :
    umAssign (umAssign m k v) k w = umAssign m k w := by
  induction m with
  | nil => simp [umAssign]
  | cons hd tl ih =>
    obtain ⟨a, b⟩ := hd
    by_cases h1 : a = k <;> simp [umAssign, h1, ih]

theorem umAssign_of_umFind_some (m : List (κ × ν)) (k : κ) (v : ν)
    (h : umFind m k = some v) : umAssign m k v = m := by
  induction m with
  | nil => simp [umFind] at h
  | cons hd tl ih =>
    obtain ⟨a, b⟩ := hd
    by_cases h1 : a = k
    · simp only [umFind, h1, if_true, Option.some.injEq] at h
      simp [umAssign, h1, h]
    · simp only [umFind, h1, if_false] at h
      simp [umAssign, h1, ih h]

theorem umFind_umErase (m : List (κ × ν)) (k k1 : κ) :
    umFind (umErase m k) k1 = if k = k1 then none else umFind m k1 := by
  induction m with
  | nil => simp [umErase, umFind]
  | cons hd tl ih =>
    obtain ⟨a, b⟩ := hd
    by_cases h : a = k
    · subst h
      by_cases h1 : a = k1
      · subst h1
        simpa [umErase] using ih
      · simp [umErase, umFind, h1, ih]
    · by_cases h1 : a = k1
      · subst h1
        simp [umErase, umFind, h, Ne.symm h]
      · simp [umErase, umFind, h, h1, ih]

theorem umErase_of_umFind_none (m : List (κ × ν)) (k : κ)
    (h : umFind m k = none) : umErase m k = m := by
  induction m with
  | nil => simp [umErase]
  | cons hd tl ih =>
    obtain ⟨a, b⟩ := hd
    by_cases h1 : a = k
    · simp [umFind, h1] at h
    · simp only [umFind, h1, if_false] at h
      simp [umErase, h1, ih h]

theorem umErase_append_singleton (m : List (κ × ν)) (k : κ) (d : ν) :
    umErase (m ++ [(k, d)]) k = umErase m k := by
  induction m with
  | nil => simp [umErase]
  | cons hd tl ih =>
    obtain ⟨a, b⟩ := hd
    by_cases h1 : a = k <;> simp [umErase, h1, ih]

end UMap

/-! ## The walks in terms of `umFind` -/

theorem insertWalk_cons (children : List (Char × Option TrieNode)) (isEnd : Bool)
    (c : Char) (cs : Str) :
    insertWalk (.mk children isEnd) (c :: cs) =
      .mk (umAssign children c (some (insertWalk
        (match umFind children c with
          | some (some n) => n
          | _ => TrieNode.new) cs))) isEnd := by
  rcases h : umFind children c with _ | (_ | n)
  · simp [insertWalk, umIndex, h, umAssign_append_of_umFind_none, umAssign_of_umFind_none]
  · simp [insertWalk, umIndex, h, umAssign_umAssign]
  · simp [insertWalk, umIndex, h]

theorem searchWalk_cons (children : List (Char × Option TrieNode)) (isEnd : Bool)
    (c : Char) (cs : Str) :
    searchWalk (.mk children isEnd) (c :: cs) =
      match umFind children c with
      | none => (false, .mk (children ++ [(c, none)]) isEnd)
      | some none => (false, .mk children isEnd)
      | some (some child) =>
        ((searchWalk child cs).1,
          .mk (umAssign children c (some (searchWalk child cs).2)) isEnd) := by
  rcases h : umFind children c with _ | (_ | n) <;> simp [searchWalk, umIndex, h]

theorem deleteWalk_cons (children : List (Char × Option TrieNode)) (isEnd : Bool)
    (c : Char) (cs : Str) :
    deleteWalk (.mk children isEnd) (c :: cs) =
      match umFind children c with
      | some (some child) =>
        (deleteWalk child cs).map
          (fun child1 => TrieNode.mk (umAssign children c (some child1)) isEnd)
      | _ => none := by
  rcases h : umFind children c with _ | (_ | n)
  · simp [deleteWalk, umIndex, h]
  · simp [deleteWalk, umIndex, h]
  · simp only [deleteWalk, umIndex, h]
    cases deleteWalk n cs <;> rfl

theorem autocompleteWalk_cons (children : List (Char × Option TrieNode)) (isEnd : Bool)
    (c : Char) (cs : Str) :
    autocompleteWalk (.mk children isEnd) (c :: cs) =
      match umFind children c with
      | none => (none, .mk (children ++ [(c, none)]) isEnd)
      | some none => (none, .mk children isEnd)
      | some (some child) =>
        ((autocompleteWalk child cs).1,
          .mk (umAssign children c (some (autocompleteWalk child cs).2)) isEnd) := by
  rcases h : umFind children c with _ | (_ | n) <;> simp [autocompleteWalk, umIndex, h]

theorem isTerminalAt_nil (t : TrieNode) : isTerminalAt t [] = t.isEndOfWord := by
  simp [isTerminalAt, nodeAt]

theorem isTerminalAt_cons (children : List (Char × Option TrieNode)) (isEnd : Bool)
    (c : Char) (cs : Str) :
    isTerminalAt (.mk children isEnd) (c :: cs) =
      match umFind children c with
      | some (some child) => isTerminalAt child cs
      | _ => false := by
  rcases h : umFind children c with _ | (_ | n) <;> simp [isTerminalAt, nodeAt, h]

/-! ## Lemmas on the walks -/

/-- `search` returns the terminal flag at the end of the path. -/
theorem searchWalk_fst (t : TrieNode) (name : Str) :
    (searchWalk t name).1 = isTerminalAt t name := by
  induction name generalizing t with
  | nil => cases t; simp [searchWalk, isTerminalAt_nil, TrieNode.isEndOfWord]
  | cons c cs ih =>
    obtain ⟨children, isEnd⟩ := t
    rw [searchWalk_cons, isTerminalAt_cons]
    rcases h : umFind children c with _ | (_ | n) <;> simp [ih]

/-- A walk over an existing path changes nothing. -/
theorem searchWalk_snd_of_nodeAt (t : TrieNode) (name : Str) (x : TrieNode)
    (h : nodeAt t name = some x) : (searchWalk t name).2 = t := by
  induction name generalizing t with
  | nil => cases t; simp [searchWalk]
  | cons c cs ih =>
    obtain ⟨children, isEnd⟩ := t
    rw [searchWalk_cons]
    rcases hf : umFind children c with _ | (_ | n)
    · simp [nodeAt, hf] at h
    · simp [nodeAt, hf] at h
    · simp only [nodeAt, hf] at h
      simp [ih n h, umAssign_of_umFind_some _ _ _ hf]

theorem nodeAt_isSome_of_isTerminalAt (t : TrieNode) (name : Str)
    (h : isTerminalAt t name = true) : ∃ x, nodeAt t name = some x ∧ x.isEndOfWord = true := by
  unfold isTerminalAt at h
  cases hn : nodeAt t name with
  | none => simp [hn] at h
  | some x => exact ⟨x, rfl, by simpa [hn] using h⟩

/-- The walk of `search` does not change which names are terminal. -/
theorem isTerminalAt_searchWalk (t : TrieNode) (name m : Str) :
    isTerminalAt (searchWalk t name).2 m = isTerminalAt t m := by
  induction name generalizing t m with
  | nil => cases t; simp [searchWalk]
  | cons c cs ih =>
    obtain ⟨children, isEnd⟩ := t
    rw [searchWalk_cons]
    cases m with
    | nil => rcases hf : umFind children c with _ | (_ | n) <;> simp [isTerminalAt_nil, TrieNode.isEndOfWord]
    | cons d ds =>
      rcases hf : umFind children c with _ | (_ | n)
      · simp only [isTerminalAt_cons, umFind_append_singleton]
        rcases hd : umFind children d with _ | (_ | n1)
        · by_cases hcd : c = d <;> simp [hcd]
        · simp
        · simp
      · simp
      · simp only [isTerminalAt_cons, umFind_umAssign]
        by_cases hcd : c = d
        · subst hcd
          simp [hf, ih]
        · simp [hcd]

/-- Searching twice leaves the state of the first search. -/
theorem searchWalk_snd_idem (t : TrieNode) (name : Str) :
    (searchWalk (searchWalk t name).2 name).2 = (searchWalk t name).2 := by
  induction name generalizing t with
  | nil => cases t; simp [searchWalk]
  | cons c cs ih =>
    obtain ⟨children, isEnd⟩ := t
    rw [searchWalk_cons]
    rcases hf : umFind children c with _ | (_ | n)
    · simp [searchWalk_cons, umFind_append_singleton, hf]
    · simp [searchWalk_cons, hf]
    · simp [searchWalk_cons, umFind_umAssign, ih, umAssign_umAssign]

/-- The walk of `autocomplete` has the effect on the trie of the walk of `search`. -/
theorem autocompleteWalk_snd (t : TrieNode) (name : Str) :
    (autocompleteWalk t name).2 = (searchWalk t name).2 := by
  induction name generalizing t with
  | nil => cases t; simp [searchWalk, autocompleteWalk]
  | cons c cs ih =>
    obtain ⟨children, isEnd⟩ := t
    rw [searchWalk_cons, autocompleteWalk_cons]
    rcases hf : umFind children c with _ | (_ | n) <;> simp [ih]

/-- The walk of `autocomplete` arrives at the node of the path, when the path exists. -/
theorem autocompleteWalk_fst (t : TrieNode) (name : Str) :
    (autocompleteWalk t name).1 = nodeAt t name := by
  induction name generalizing t with
  | nil => cases t; simp [autocompleteWalk, nodeAt]
  | cons c cs ih =>
    obtain ⟨children, isEnd⟩ := t
    rw [autocompleteWalk_cons]
    rcases hf : umFind children c with _ | (_ | n) <;> simp [nodeAt, hf, ih]

theorem isTerminalAt_new (m : Str) : isTerminalAt TrieNode.new m = false := by
  cases m <;> simp [isTerminalAt, nodeAt, TrieNode.new, umFind, TrieNode.isEndOfWord]

/-- After `insert`, a name is terminal iff it is the inserted one or was terminal. -/
theorem isTerminalAt_insertWalk (t : TrieNode) (name m : Str) :
    isTerminalAt (insertWalk t name) m = (decide (m = name) || isTerminalAt t m) := by
  induction name generalizing t m with
  | nil =>
    obtain ⟨children, isEnd⟩ := t
    cases m with
    | nil => simp [insertWalk, isTerminalAt_nil, TrieNode.isEndOfWord]
    | cons d ds => simp [insertWalk, isTerminalAt_cons]
  | cons c cs ih =>
    obtain ⟨children, isEnd⟩ := t
    rw [insertWalk_cons]
    cases m with
    | nil => simp [isTerminalAt_nil, TrieNode.isEndOfWord]
    | cons d ds =>
      simp only [isTerminalAt_cons, umFind_umAssign]
      by_cases hcd : c = d
      · subst hcd
        rcases hf : umFind children c with _ | (_ | n) <;>
          simp [ih, isTerminalAt_new]
      · have : ¬ (d = c) := fun h => hcd h.symm
        simp [hcd, this]

/-- The walk of `deleteEntry` on a name that is terminal: it completes, and afterwards
that name is not terminal and every other name is as before. -/
theorem deleteWalk_of_isTerminalAt (t : TrieNode) (name : Str)
    (h : isTerminalAt t name = true) :
    ∃ t2, deleteWalk t name = some t2 ∧
      (∃ x, nodeAt t2 name = some x ∧ x.isEndOfWord = false) ∧
      ∀ m, isTerminalAt t2 m = (!decide (m = name) && isTerminalAt t m) := by
  induction name generalizing t with
  | nil =>
    obtain ⟨children, isEnd⟩ := t
    refine ⟨.mk children false, rfl, ⟨_, rfl, rfl⟩, ?_⟩
    intro m
    cases m with
    | nil => simp [isTerminalAt_nil, TrieNode.isEndOfWord]
    | cons d ds => simp [isTerminalAt_cons]
  | cons c cs ih =>
    obtain ⟨children, isEnd⟩ := t
    rw [isTerminalAt_cons] at h
    rcases hf : umFind children c with _ | (_ | n)
    · simp [hf] at h
    · simp [hf] at h
    · simp only [hf] at h
      obtain ⟨n2, hn2, ⟨x, hx, hxe⟩, hm⟩ := ih n h
      refine ⟨.mk (umAssign children c (some n2)) isEnd, ?_, ⟨x, ?_, hxe⟩, ?_⟩
      · rw [deleteWalk_cons]; simp [hf, hn2]
      · simp [nodeAt, umFind_umAssign, hx]
      · intro m
        cases m with
        | nil => simp [isTerminalAt_nil, TrieNode.isEndOfWord]
        | cons d ds =>
          simp only [isTerminalAt_cons, umFind_umAssign]
          by_cases hcd : c = d
          · subst hcd
            simp [hf, hm]
          · have : ¬ (d = c) := fun h => hcd h.symm
            simp [hcd, this]

/-! ## Lemmas on the methods -/

theorem search_fst (pb : Phonebook) (N : Str) :
    (pb.search N).1 = isTerminalAt pb.root N := by
  rw [← searchWalk_fst]
  unfold Phonebook.search
  rcases searchWalk pb.root N with ⟨_ | _, root1⟩ <;> rfl

theorem search_root (pb : Phonebook) (N : Str) :
    (pb.search N).2.2.root = (searchWalk pb.root N).2 := by
  unfold Phonebook.search
  rcases searchWalk pb.root N with ⟨_ | _, root1⟩ <;> rfl

theorem search_number (pb : Phonebook) (N : Str) :
    (pb.search N).2.1 =
      if isTerminalAt pb.root N then some ((umFind pb.phoneNumbers N).getD []) else none := by
  rw [← searchWalk_fst]
  unfold Phonebook.search
  rcases searchWalk pb.root N with ⟨_ | _, root1⟩
  · rfl
  · cases h : umFind pb.phoneNumbers N <;> simp [umIndex, h]

theorem search_phoneNumbers (pb : Phonebook) (N : Str) :
    (pb.search N).2.2.phoneNumbers =
      if isTerminalAt pb.root N then (umIndex pb.phoneNumbers N []).2 else pb.phoneNumbers := by
  rw [← searchWalk_fst]
  unfold Phonebook.search
  rcases searchWalk pb.root N with ⟨_ | _, root1⟩ <;> rfl

theorem umFind_umIndex {κ ν : Type} [DecidableEq κ] (m : List (κ × ν)) (k k1 : κ) (d : ν)
    (h : k1 ≠ k) : umFind (umIndex m k d).2 k1 = umFind m k1 := by
  unfold umIndex
  cases hf : umFind m k with
  | some v => rfl
  | none =>
    simp only [umFind_append_singleton]
    cases umFind m k1 <;> simp [Ne.symm h]

theorem umIndex_of_isSome {κ ν : Type} [DecidableEq κ] (m : List (κ × ν)) (k : κ) (d : ν)
    (h : (umFind m k).isSome = true) : (umIndex m k d).2 = m := by
  unfold umIndex
  cases hf : umFind m k with
  | some v => rfl
  | none => simp [hf] at h

/-- A search that does not find the name: `deleteEntry` is that search. -/
theorem deleteEntry_of_not_terminal (pb : Phonebook) (N : Str)
    (h : isTerminalAt pb.root N = false) :
    pb.deleteEntry N = some (false, ⟨(searchWalk pb.root N).2, pb.phoneNumbers⟩) := by
  have h1 : (searchWalk pb.root N).1 = false := by rw [searchWalk_fst, h]
  unfold Phonebook.deleteEntry Phonebook.search
  rcases hs : searchWalk pb.root N with ⟨found, root1⟩
  rw [hs] at h1
  dsimp only at h1
  subst h1
  rfl

/-- A search that finds the name: `deleteEntry` clears the flag and erases the number. -/
theorem deleteEntry_of_terminal (pb : Phonebook) (N : Str)
    (h : isTerminalAt pb.root N = true) :
    ∃ t2, deleteWalk pb.root N = some t2 ∧
      pb.deleteEntry N = some (true, ⟨t2, umErase pb.phoneNumbers N⟩) := by
  obtain ⟨t2, ht2, -, -⟩ := deleteWalk_of_isTerminalAt pb.root N h
  obtain ⟨x, hx, -⟩ := nodeAt_isSome_of_isTerminalAt pb.root N h
  have h1 : (searchWalk pb.root N).1 = true := by rw [searchWalk_fst, h]
  have h2 : (searchWalk pb.root N).2 = pb.root := searchWalk_snd_of_nodeAt _ _ x hx
  refine ⟨t2, ht2, ?_⟩
  unfold Phonebook.deleteEntry Phonebook.search
  rcases hs : searchWalk pb.root N with ⟨found, root1⟩
  rw [hs] at h1 h2
  dsimp only at h1 h2
  subst h1 h2
  simp only [Bool.not_true, Bool.false_eq_true, if_false, if_true, ht2]
  congr 3
  unfold umIndex
  cases hf : umFind pb.phoneNumbers N with
  | some v => rfl
  | none => exact umErase_append_singleton _ _ _

/-- The state after a completed `autocomplete` is the state after the walk. -/
theorem autocomplete_state (pb pb1 : Phonebook) (pre : Str) (results : List Str)
    (h : pb.autocomplete pre = some (results, pb1)) :
    pb1 = ⟨(searchWalk pb.root pre).2, pb.phoneNumbers⟩ := by
  rw [← autocompleteWalk_snd]
  unfold Phonebook.autocomplete at h
  rcases hw : autocompleteWalk pb.root pre with ⟨_ | node, root1⟩
  · rw [hw] at h
    simp only [Option.some.injEq, Prod.mk.injEq] at h
    exact h.2.symm
  · rw [hw] at h
    dsimp only at h
    cases hh : autocompleteHelper node pre [] with
    | none => rw [hh] at h; simp at h
    | some r =>
      rw [hh] at h
      simp only [Option.some.injEq, Prod.mk.injEq] at h
      exact h.2.symm

theorem printAllEntries_state (pb pb1 : Phonebook) (out : List (Str × Option Str))
    (h : pb.printAllEntries = (out, some pb1)) : pb1 = pb := by
  unfold Phonebook.printAllEntries at h
  rcases hh : printAllEntriesHelper pb.phoneNumbers pb.root [] [] with ⟨r, _ | _⟩
  · rw [hh] at h; simp at h
  · rw [hh] at h
    simp only [Prod.mk.injEq, Option.some.injEq] at h
    exact h.2.symm

theorem consistent_new : Consistent Phonebook.new := by
  intro N
  simp [Phonebook.new, umFind, isTerminalAt_new]

theorem consistent_insert (pb : Phonebook) (name number : Str) (h : Consistent pb) :
    Consistent (pb.insert name number) := by
  intro N
  simp only [Phonebook.insert, umFind_umAssign, isTerminalAt_insertWalk, ← h N]
  by_cases hn : name = N
  · subst hn; simp
  · have : ¬ (N = name) := fun e => hn e.symm
    simp [hn, this]

theorem consistent_search (pb : Phonebook) (name : Str) (h : Consistent pb) :
    Consistent (pb.search name).2.2 := by
  intro N
  rw [search_root, search_phoneNumbers, isTerminalAt_searchWalk, ← h N]
  cases ht : isTerminalAt pb.root name with
  | false => simp
  | true =>
    have := h name
    rw [ht] at this
    simp [umIndex_of_isSome _ _ _ this]

theorem consistent_deleteEntry (pb pb1 : Phonebook) (name : Str) (r : Bool)
    (h : Consistent pb) (hd : pb.deleteEntry name = some (r, pb1)) : Consistent pb1 := by
  intro N
  cases ht : isTerminalAt pb.root name with
  | false =>
    rw [deleteEntry_of_not_terminal pb name ht] at hd
    simp only [Option.some.injEq, Prod.mk.injEq] at hd
    rw [← hd.2]
    simp only [isTerminalAt_searchWalk]
    exact h N
  | true =>
    obtain ⟨t2, ht2, hde⟩ := deleteEntry_of_terminal pb name ht
    obtain ⟨t3, ht3, -, hm⟩ := deleteWalk_of_isTerminalAt pb.root name ht
    rw [ht2] at ht3
    cases ht3
    rw [hde] at hd
    simp only [Option.some.injEq, Prod.mk.injEq] at hd
    rw [← hd.2]
    simp only [umFind_umErase, hm, ← h N]
    by_cases hn : name = N
    · subst hn; simp
    · have : ¬ (N = name) := fun e => hn e.symm
      simp [hn, this]

theorem consistent_of_reachable (pb : Phonebook) (h : Reachable pb) : Consistent pb := by
  induction h with
  | new => exact consistent_new
  | insert name number _ ih => exact consistent_insert _ _ _ ih
  | search name _ ih => exact consistent_search _ _ ih
  | deleteEntry name r _ hd ih => exact consistent_deleteEntry _ _ _ _ ih hd
  | autocomplete pre results _ ha ih =>
    rw [autocomplete_state _ _ _ _ ha]
    intro N
    simp only [isTerminalAt_searchWalk]
    exact ih N
  | printAllEntries out _ hp ih =>
    rw [printAllEntries_state _ _ _ hp]
    exact ih

mutual
/-- When `printAllEntriesHelper` returns, `autocompleteHelper` returns too, with the names
of the lines written, in the same order; when it dereferences a null child, so does
`autocompleteHelper`, whose vector is then never printed. -/
theorem printAllEntriesHelper_names (pn : List (Str × Str)) :
    ∀ (t : TrieNode) (pre : Str) (out : List (Str × Option Str)),
      autocompleteHelper t pre (out.map Prod.fst) =
        if (printAllEntriesHelper pn t pre out).2 = true then
          some ((printAllEntriesHelper pn t pre out).1.map Prod.fst)
        else none
  | .mk children isEnd, pre, out => by
    rw [printAllEntriesHelper, autocompleteHelper, ← printAllEntriesChildren_names pn children]
    cases isEnd <;> simp
/-- The loop over the children, for `printAllEntriesHelper_names`. -/
theorem printAllEntriesChildren_names (pn : List (Str × Str)) :
    ∀ (ch : List (Char × Option TrieNode)) (pre : Str) (out : List (Str × Option Str)),
      autocompleteChildren ch pre (out.map Prod.fst) =
        if (printAllEntriesChildren pn ch pre out).2 = true then
          some ((printAllEntriesChildren pn ch pre out).1.map Prod.fst)
        else none
  | [], pre, out => by simp [printAllEntriesChildren, autocompleteChildren]
  | (c, none) :: rest, pre, out => by simp [printAllEntriesChildren, autocompleteChildren]
  | (c, some child) :: rest, pre, out => by
    rw [printAllEntriesChildren, autocompleteChildren,
      printAllEntriesHelper_names pn child (pre ++ [c]) out]
    rcases h : printAllEntriesHelper pn child (pre ++ [c]) out with ⟨out1, _ | _⟩
    · simp
    · simp [printAllEntriesChildren_names pn rest pre out1]
end

theorem autocomplete_nil (pb : Phonebook) :
    pb.autocomplete [] = (autocompleteHelper pb.root [] []).map (fun r => (r, pb)) := by
  obtain ⟨⟨children, isEnd⟩, pn⟩ := pb
  simp only [Phonebook.autocomplete, autocompleteWalk]
  cases autocompleteHelper (.mk children isEnd) [] [] <;> rfl

/-! ## The traversals on a trie without null children -/

mutual
/-- Without null children `autocompleteHelper` completes and appends the terminal paths of
the subtree, each prefixed by `pre`. -/
theorem autocompleteHelper_eq :
    ∀ (t : TrieNode) (pre : Str) (results : List Str), t.nullFree = true →
      autocompleteHelper t pre results =
        some (results ++ (terminalPaths t).map (pre ++ ·))
  | .mk children isEnd, pre, results, h => by
    rw [TrieNode.nullFree] at h
    rw [autocompleteHelper, autocompleteChildren_eq children pre _ h, terminalPaths]
    cases isEnd <;> simp
/-- The loop over the children, for `autocompleteHelper_eq`. -/
theorem autocompleteChildren_eq :
    ∀ (ch : List (Char × Option TrieNode)) (pre : Str) (results : List Str),
      childrenNullFree ch = true →
      autocompleteChildren ch pre results =
        some (results ++ (childrenPaths ch).map (pre ++ ·))
  | [], pre, results, _ => by simp [autocompleteChildren, childrenPaths]
  | (c, none) :: rest, pre, results, h => by simp [childrenNullFree] at h
  | (c, some child) :: rest, pre, results, h => by
    rw [childrenNullFree, Bool.and_eq_true] at h
    rw [autocompleteChildren, autocompleteHelper_eq child (pre ++ [c]) results h.1]
    simp only
    rw [autocompleteChildren_eq rest pre _ h.2, childrenPaths]
    simp [Function.comp_def]
end

mutual
/-- Without null children `printAllEntriesHelper` completes and writes one line per terminal
path of the subtree. -/
theorem printAllEntriesHelper_eq (pn : List (Str × Str)) :
    ∀ (t : TrieNode) (pre : Str) (out : List (Str × Option Str)), t.nullFree = true →
      printAllEntriesHelper pn t pre out =
        (out ++ (terminalPaths t).map (fun s => (pre ++ s, umFind pn (pre ++ s))), true)
  | .mk children isEnd, pre, out, h => by
    rw [TrieNode.nullFree] at h
    rw [printAllEntriesHelper, printAllEntriesChildren_eq pn children pre _ h, terminalPaths]
    cases isEnd <;> simp
/-- The loop over the children, for `printAllEntriesHelper_eq`. -/
theorem printAllEntriesChildren_eq (pn : List (Str × Str)) :
    ∀ (ch : List (Char × Option TrieNode)) (pre : Str) (out : List (Str × Option Str)),
      childrenNullFree ch = true →
      printAllEntriesChildren pn ch pre out =
        (out ++ (childrenPaths ch).map (fun s => (pre ++ s, umFind pn (pre ++ s))), true)
  | [], pre, out, _ => by simp [printAllEntriesChildren, childrenPaths]
  | (c, none) :: rest, pre, out, h => by simp [childrenNullFree] at h
  | (c, some child) :: rest, pre, out, h => by
    rw [childrenNullFree, Bool.and_eq_true] at h
    rw [printAllEntriesChildren, printAllEntriesHelper_eq pn child (pre ++ [c]) out h.1]
    simp only
    rw [printAllEntriesChildren_eq pn rest pre _ h.2, childrenPaths]
    simp [Function.comp_def]
end

theorem mem_keys_of_umFind {κ ν : Type} [DecidableEq κ] (m : List (κ × ν)) (k : κ) (v : ν)
    (h : umFind m k = some v) : k ∈ m.map Prod.fst := by
  induction m with
  | nil => simp [umFind] at h
  | cons hd tl ih =>
    obtain ⟨a, b⟩ := hd
    by_cases hab : a = k
    · simp [hab]
    · simp only [umFind, hab, if_false] at h
      simp [ih h]

theorem umFind_eq_none_iff {κ ν : Type} [DecidableEq κ] (m : List (κ × ν)) (k : κ) :
    umFind m k = none ↔ k ∉ m.map Prod.fst := by
  induction m with
  | nil => simp [umFind]
  | cons hd tl ih =>
    obtain ⟨a, b⟩ := hd
    by_cases hab : a = k
    · simp [umFind, hab]
    · have : ¬ (k = a) := fun e => hab e.symm
      simp [umFind, hab, this, ih]

mutual
/-- In a trie whose maps bind each key once, the terminal paths are the names at which the
trie is terminal, each listed once. -/
theorem terminalPaths_spec :
    ∀ (t : TrieNode), t.keysNodup = true →
      (terminalPaths t).Nodup ∧ ∀ m, m ∈ terminalPaths t ↔ isTerminalAt t m = true
  | .mk children isEnd, h => by
    rw [TrieNode.keysNodup, Bool.and_eq_true, decide_eq_true_eq] at h
    obtain ⟨hnd, hmem⟩ := childrenPaths_spec children h.1 h.2
    have hnil : [] ∉ childrenPaths children := by
      intro hin
      obtain ⟨c, ds, child, hc, -, -⟩ := (hmem []).1 hin
      exact List.noConfusion hc
    rw [terminalPaths]
    constructor
    · cases isEnd
      · simpa using hnd
      · simp only [if_true, List.singleton_append, List.nodup_cons]
        exact ⟨hnil, hnd⟩
    · intro m
      cases m with
      | nil =>
        cases isEnd <;> simp [isTerminalAt_nil, TrieNode.isEndOfWord, hnil]
      | cons d ds =>
        rw [isTerminalAt_cons]
        have h1 : (d :: ds) ∈ (if isEnd = true then [[]] else []) ++ childrenPaths children ↔
            (d :: ds) ∈ childrenPaths children := by
          cases isEnd <;> simp
        rw [h1, hmem]
        constructor
        · rintro ⟨c, es, child, hc, hf, ht⟩
          cases hc
          simp [hf, ht]
        · intro ht
          rcases hf : umFind children d with _ | (_ | n)
          · simp [hf] at ht
          · simp [hf] at ht
          · simp only [hf] at ht
            exact ⟨d, ds, n, rfl, hf, ht⟩
/-- The bindings of a `children` map, for `terminalPaths_spec`. -/
theorem childrenPaths_spec :
    ∀ (ch : List (Char × Option TrieNode)), (ch.map Prod.fst).Nodup →
      childrenKeysNodup ch = true →
      (childrenPaths ch).Nodup ∧
      ∀ m, m ∈ childrenPaths ch ↔
        ∃ c ds child, m = c :: ds ∧ umFind ch c = some (some child) ∧
          isTerminalAt child ds = true
  | [], _, _ => by simp [childrenPaths, umFind]
  | (c, none) :: rest, hk, h => by
    rw [childrenKeysNodup] at h
    simp only [List.map_cons, List.nodup_cons] at hk
    obtain ⟨hnd, hmem⟩ := childrenPaths_spec rest hk.2 h
    rw [childrenPaths]
    refine ⟨hnd, fun m => ?_⟩
    rw [hmem]
    constructor
    · rintro ⟨c1, ds, child, hm, hf, ht⟩
      have hne : ¬ (c = c1) := fun e => hk.1 (e ▸ mem_keys_of_umFind _ _ _ hf)
      exact ⟨c1, ds, child, hm, by simp [umFind, hne, hf], ht⟩
    · rintro ⟨c1, ds, child, hm, hf, ht⟩
      by_cases hne : c = c1
      · simp [umFind, hne] at hf
      · simp only [umFind, hne, if_false] at hf
        exact ⟨c1, ds, child, hm, hf, ht⟩
  | (c, some child) :: rest, hk, h => by
    rw [childrenKeysNodup, Bool.and_eq_true] at h
    simp only [List.map_cons, List.nodup_cons] at hk
    obtain ⟨hnd, hmem⟩ := childrenPaths_spec rest hk.2 h.2
    obtain ⟨hnd1, hmem1⟩ := terminalPaths_spec child h.1
    rw [childrenPaths]
    constructor
    · rw [List.nodup_append]
      refine ⟨hnd1.map (fun a b hab => List.tail_eq_of_cons_eq hab), hnd, ?_⟩
      intro m hm1 hm2
      obtain ⟨s, -, hs⟩ := List.mem_map.1 hm1
      obtain ⟨c1, ds, child1, hm, hf, -⟩ := (hmem m).1 hm2
      rw [← hs] at hm
      cases hm
      exact hk.1 (mem_keys_of_umFind _ _ _ hf)
    · intro m
      rw [List.mem_append, hmem, List.mem_map]
      constructor
      · rintro (⟨s, hs, rfl⟩ | ⟨c1, ds, child1, hm, hf, ht⟩)
        · exact ⟨c, s, child, rfl, by simp [umFind], (hmem1 s).1 hs⟩
        · have hne : ¬ (c = c1) := fun e => hk.1 (e ▸ mem_keys_of_umFind _ _ _ hf)
          exact ⟨c1, ds, child1, hm, by simp [umFind, hne, hf], ht⟩
      · rintro ⟨c1, ds, child1, hm, hf, ht⟩
        by_cases hne : c = c1
        · subst hne
          simp only [umFind, if_true, Option.some.injEq] at hf
          subst hf
          exact Or.inl ⟨ds, (hmem1 ds).2 ht, hm.symm⟩
        · simp only [umFind, hne, if_false] at hf
          exact Or.inr ⟨c1, ds, child1, hm, hf, ht⟩
end

theorem isTerminalAt_append (t : TrieNode) (q s : Str) :
    isTerminalAt t (q ++ s) =
      match nodeAt t q with
      | some x => isTerminalAt x s
      | none => false := by
  induction q generalizing t with
  | nil => simp [nodeAt]
  | cons c cs ih =>
    obtain ⟨children, isEnd⟩ := t
    rw [List.cons_append, isTerminalAt_cons]
    rcases hf : umFind children c with _ | (_ | n) <;> simp [nodeAt, hf, ih]

theorem childrenNullFree_of_umFind (ch : List (Char × Option TrieNode)) (c : Char)
    (child : TrieNode) (h : childrenNullFree ch = true)
    (hf : umFind ch c = some (some child)) : child.nullFree = true := by
  induction ch with
  | nil => simp [umFind] at hf
  | cons hd tl ih =>
    obtain ⟨a, _ | x⟩ := hd
    · simp [childrenNullFree] at h
    · rw [childrenNullFree, Bool.and_eq_true] at h
      by_cases hac : a = c
      · simp only [umFind, hac, if_true, Option.some.injEq] at hf
        subst hf
        exact h.1
      · simp only [umFind, hac, if_false] at hf
        exact ih h.2 hf

theorem childrenKeysNodup_of_umFind (ch : List (Char × Option TrieNode)) (c : Char)
    (child : TrieNode) (h : childrenKeysNodup ch = true)
    (hf : umFind ch c = some (some child)) : child.keysNodup = true := by
  induction ch with
  | nil => simp [umFind] at hf
  | cons hd tl ih =>
    obtain ⟨a, _ | x⟩ := hd
    · rw [childrenKeysNodup] at h
      by_cases hac : a = c
      · simp [umFind, hac] at hf
      · simp only [umFind, hac, if_false] at hf
        exact ih h hf
    · rw [childrenKeysNodup, Bool.and_eq_true] at h
      by_cases hac : a = c
      · simp only [umFind, hac, if_true, Option.some.injEq] at hf
        subst hf
        exact h.1
      · simp only [umFind, hac, if_false] at hf
        exact ih h.2 hf

theorem nullFree_nodeAt (t x : TrieNode) (q : Str) (h : t.nullFree = true)
    (hx : nodeAt t q = some x) : x.nullFree = true := by
  induction q generalizing t with
  | nil => simp only [nodeAt, Option.some.injEq] at hx; exact hx ▸ h
  | cons c cs ih =>
    obtain ⟨children, isEnd⟩ := t
    rw [TrieNode.nullFree] at h
    rcases hf : umFind children c with _ | (_ | n)
    · simp [nodeAt, hf] at hx
    · simp [nodeAt, hf] at hx
    · simp only [nodeAt, hf] at hx
      exact ih n (childrenNullFree_of_umFind _ _ _ h hf) hx

theorem keysNodup_nodeAt (t x : TrieNode) (q : Str) (h : t.keysNodup = true)
    (hx : nodeAt t q = some x) : x.keysNodup = true := by
  induction q generalizing t with
  | nil => simp only [nodeAt, Option.some.injEq] at hx; exact hx ▸ h
  | cons c cs ih =>
    obtain ⟨children, isEnd⟩ := t
    rw [TrieNode.keysNodup, Bool.and_eq_true] at h
    rcases hf : umFind children c with _ | (_ | n)
    · simp [nodeAt, hf] at hx
    · simp [nodeAt, hf] at hx
    · simp only [nodeAt, hf] at hx
      exact ih n (childrenKeysNodup_of_umFind _ _ _ h.2 hf) hx

/-- The prefix law on a trie without null children (and whose maps bind each key once):
`autocomplete(Q)` completes, its list has no duplicates, and a name is in it iff it starts
with `Q` and `search` finds it. -/
theorem autocomplete_prefix_law (pb : Phonebook) (Q : Str)
    (hnf : pb.root.nullFree = true) (hk : pb.root.keysNodup = true) :
    ∃ names pb1, pb.autocomplete Q = some (names, pb1) ∧ names.Nodup ∧
      ∀ m, m ∈ names ↔ (Q <+: m ∧ (pb.search m).1 = true) := by
  have hw := autocompleteWalk_fst pb.root Q
  unfold Phonebook.autocomplete
  rcases hq : autocompleteWalk pb.root Q with ⟨cur, root1⟩
  rw [hq] at hw
  dsimp only at hw
  subst hw
  cases hn : nodeAt pb.root Q with
  | none =>
    refine ⟨[], _, rfl, List.nodup_nil, fun m => ?_⟩
    simp only [List.not_mem_nil, false_iff, not_and, search_fst]
    rintro ⟨s, rfl⟩
    simp [isTerminalAt_append, hn]
  | some x =>
    have hx1 := nullFree_nodeAt _ _ _ hnf hn
    have hx2 := keysNodup_nodeAt _ _ _ hk hn
    obtain ⟨hnd, hmem⟩ := terminalPaths_spec x hx2
    simp only [autocompleteHelper_eq x Q [] hx1, List.nil_append]
    refine ⟨_, _, rfl, hnd.map (fun a b hab => List.append_cancel_left hab), fun m => ?_⟩
    simp only [List.mem_map, hmem, search_fst]
    constructor
    · rintro ⟨s, hs, rfl⟩
      exact ⟨⟨s, rfl⟩, by simp [isTerminalAt_append, hn, hs]⟩
    · rintro ⟨⟨s, rfl⟩, ht⟩
      refine ⟨s, ?_, rfl⟩
      simpa [isTerminalAt_append, hn] using ht

/-- Witness for `autocomplete_prefix_law` in the scenario directory. -/
theorem autocomplete_prefix_law_witness :
    ∃ names pb1, annAnnaBob.autocomplete "An".toList = some (names, pb1) ∧ names.Nodup ∧
      ∀ m, m ∈ names ↔ ("An".toList <+: m ∧ (annAnnaBob.search m).1 = true) :=
  autocomplete_prefix_law annAnnaBob "An".toList (by decide) (by decide)

/-! ## Keys stay unique -/

theorem keys_umAssign {κ ν : Type} [DecidableEq κ] (m : List (κ × ν)) (k : κ) (v : ν) :
    (umAssign m k v).map Prod.fst =
      if k ∈ m.map Prod.fst then m.map Prod.fst else m.map Prod.fst ++ [k] := by
  induction m with
  | nil => simp [umAssign]
  | cons hd tl ih =>
    obtain ⟨a, b⟩ := hd
    by_cases hak : a = k
    · simp [umAssign, hak]
    · have : ¬ (k = a) := fun e => hak e.symm
      simp only [umAssign, hak, if_false, List.map_cons, ih, List.mem_cons, this, false_or]
      split <;> simp

theorem nodup_keys_umAssign {κ ν : Type} [DecidableEq κ] (m : List (κ × ν)) (k : κ) (v : ν)
    (h : (m.map Prod.fst).Nodup) : ((umAssign m k v).map Prod.fst).Nodup := by
  rw [keys_umAssign]
  split
  · exact h
  · rename_i hk
    rw [List.nodup_append]
    exact ⟨h, List.nodup_singleton k, by
      intro a ha hb
      rw [List.mem_singleton] at hb
      exact hk (hb ▸ ha)⟩

theorem nodup_keys_append_of_umFind_none {κ ν : Type} [DecidableEq κ] (m : List (κ × ν))
    (k : κ) (d : ν) (h : (m.map Prod.fst).Nodup) (hf : umFind m k = none) :
    ((m ++ [(k, d)]).map Prod.fst).Nodup := by
  rw [← umAssign_of_umFind_none m k d hf]
  exact nodup_keys_umAssign m k d h

theorem nodup_keys_umIndex {κ ν : Type} [DecidableEq κ] (m : List (κ × ν)) (k : κ) (d : ν)
    (h : (m.map Prod.fst).Nodup) : (((umIndex m k d).2).map Prod.fst).Nodup := by
  unfold umIndex
  cases hf : umFind m k with
  | some v => exact h
  | none => exact nodup_keys_append_of_umFind_none m k d h hf

theorem nodup_keys_umErase {κ ν : Type} [DecidableEq κ] (m : List (κ × ν)) (k : κ)
    (h : (m.map Prod.fst).Nodup) : ((umErase m k).map Prod.fst).Nodup := by
  have hsub : ∀ l : List (κ × ν), List.Sublist (umErase l k) l := by
    intro l
    induction l with
    | nil => simp [umErase]
    | cons hd tl ih =>
      obtain ⟨a, b⟩ := hd
      by_cases hak : a = k
      · simp only [umErase, hak, if_true]
        exact List.Sublist.cons _ ih
      · simp only [umErase, hak, if_false]
        exact List.Sublist.cons₂ _ ih
  exact List.Nodup.sublist ((hsub m).map Prod.fst) h

theorem mem_iff_umFind {κ ν : Type} [DecidableEq κ] (m : List (κ × ν)) (k : κ) (v : ν)
    (h : (m.map Prod.fst).Nodup) : (k, v) ∈ m ↔ umFind m k = some v := by
  induction m with
  | nil => simp [umFind]
  | cons hd tl ih =>
    obtain ⟨a, b⟩ := hd
    simp only [List.map_cons, List.nodup_cons] at h
    by_cases hak : a = k
    · subst hak
      simp only [List.mem_cons, Prod.mk.injEq, true_and, umFind, if_true, Option.some.injEq]
      constructor
      · rintro (e | hin)
        · exact e.symm
        · exact absurd (List.mem_map_of_mem Prod.fst hin) h.1
      · intro e
        exact Or.inl e.symm
    · have : ¬ (k = a) := fun e => hak e.symm
      simp [umFind, hak, this, ih h.2]

theorem childrenKeysNodup_umAssign (ch : List (Char × Option TrieNode)) (c : Char)
    (x : TrieNode) (h : childrenKeysNodup ch = true) (hx : x.keysNodup = true) :
    childrenKeysNodup (umAssign ch c (some x)) = true := by
  induction ch with
  | nil => simp [umAssign, childrenKeysNodup, hx]
  | cons hd tl ih =>
    obtain ⟨a, _ | y⟩ := hd
    · rw [childrenKeysNodup] at h
      by_cases hac : a = c
      · simp [umAssign, hac, childrenKeysNodup, hx, h]
      · simp [umAssign, hac, childrenKeysNodup, ih h]
    · rw [childrenKeysNodup, Bool.and_eq_true] at h
      by_cases hac : a = c
      · simp [umAssign, hac, childrenKeysNodup, hx, h.2]
      · simp [umAssign, hac, childrenKeysNodup, ih h.2, h.1]

theorem childrenKeysNodup_append_none (ch : List (Char × Option TrieNode)) (c : Char)
    (h : childrenKeysNodup ch = true) : childrenKeysNodup (ch ++ [(c, none)]) = true := by
  induction ch with
  | nil => simp [childrenKeysNodup]
  | cons hd tl ih =>
    obtain ⟨a, _ | y⟩ := hd
    · rw [childrenKeysNodup] at h
      simp [childrenKeysNodup, ih h]
    · rw [childrenKeysNodup, Bool.and_eq_true] at h
      simp [childrenKeysNodup, ih h.2, h.1]

theorem keysNodup_mk_umAssign (ch : List (Char × Option TrieNode)) (e e1 : Bool) (c : Char)
    (x : TrieNode) (h : (TrieNode.mk ch e).keysNodup = true) (hx : x.keysNodup = true) :
    (TrieNode.mk (umAssign ch c (some x)) e1).keysNodup = true := by
  rw [TrieNode.keysNodup, Bool.and_eq_true, decide_eq_true_eq] at h ⊢
  exact ⟨nodup_keys_umAssign _ _ _ h.1, childrenKeysNodup_umAssign _ _ _ h.2 hx⟩

theorem keysNodup_insertWalk (t : TrieNode) (name : Str) (h : t.keysNodup = true) :
    (insertWalk t name).keysNodup = true := by
  induction name generalizing t with
  | nil =>
    obtain ⟨children, isEnd⟩ := t
    simpa [insertWalk, TrieNode.keysNodup] using h
  | cons c cs ih =>
    obtain ⟨children, isEnd⟩ := t
    rw [insertWalk_cons]
    apply keysNodup_mk_umAssign _ _ _ _ _ h
    apply ih
    rw [TrieNode.keysNodup, Bool.and_eq_true] at h
    rcases hf : umFind children c with _ | (_ | n)
    · rfl
    · rfl
    · exact childrenKeysNodup_of_umFind _ _ _ h.2 hf

theorem keysNodup_searchWalk (t : TrieNode) (name : Str) (h : t.keysNodup = true) :
    (searchWalk t name).2.keysNodup = true := by
  induction name generalizing t with
  | nil =>
    obtain ⟨children, isEnd⟩ := t
    simpa [searchWalk] using h
  | cons c cs ih =>
    obtain ⟨children, isEnd⟩ := t
    rw [searchWalk_cons]
    rcases hf : umFind children c with _ | (_ | n)
    · rw [TrieNode.keysNodup, Bool.and_eq_true, decide_eq_true_eq] at h
      simp only [TrieNode.keysNodup, Bool.and_eq_true, decide_eq_true_eq]
      exact ⟨nodup_keys_append_of_umFind_none _ _ _ h.1 hf,
        childrenKeysNodup_append_none _ _ h.2⟩
    · exact h
    · apply keysNodup_mk_umAssign _ _ _ _ _ h
      apply ih
      rw [TrieNode.keysNodup, Bool.and_eq_true] at h
      exact childrenKeysNodup_of_umFind _ _ _ h.2 hf

theorem keysNodup_deleteWalk (t t2 : TrieNode) (name : Str) (h : t.keysNodup = true)
    (hd : deleteWalk t name = some t2) : t2.keysNodup = true := by
  induction name generalizing t t2 with
  | nil =>
    obtain ⟨children, isEnd⟩ := t
    simp only [deleteWalk, Option.some.injEq] at hd
    subst hd
    simpa [TrieNode.keysNodup] using h
  | cons c cs ih =>
    obtain ⟨children, isEnd⟩ := t
    rw [deleteWalk_cons] at hd
    rcases hf : umFind children c with _ | (_ | n)
    · simp [hf] at hd
    · simp [hf] at hd
    · simp only [hf, Option.map_eq_some'] at hd
      obtain ⟨n2, hn2, rfl⟩ := hd
      apply keysNodup_mk_umAssign _ _ _ _ _ h
      apply ih n n2 _ hn2
      rw [TrieNode.keysNodup, Bool.and_eq_true] at h
      exact childrenKeysNodup_of_umFind _ _ _ h.2 hf

theorem wellKeyed_of_reachable (pb : Phonebook) (h : Reachable pb) : WellKeyed pb := by
  induction h with
  | new => exact ⟨rfl, List.nodup_nil⟩
  | insert name number _ ih =>
    exact ⟨keysNodup_insertWalk _ _ ih.1, nodup_keys_umAssign _ _ _ ih.2⟩
  | @search pb name _ ih =>
    refine ⟨by rw [search_root]; exact keysNodup_searchWalk _ _ ih.1, ?_⟩
    rw [search_phoneNumbers]
    split
    · exact nodup_keys_umIndex _ _ _ ih.2
    · exact ih.2
  | @deleteEntry pb pb1 name r _ hd ih =>
    cases ht : isTerminalAt pb.root name with
    | false =>
      rw [deleteEntry_of_not_terminal pb name ht] at hd
      simp only [Option.some.injEq, Prod.mk.injEq] at hd
      rw [← hd.2]
      exact ⟨keysNodup_searchWalk _ _ ih.1, ih.2⟩
    | true =>
      obtain ⟨t2, ht2, hde⟩ := deleteEntry_of_terminal pb name ht
      rw [hde] at hd
      simp only [Option.some.injEq, Prod.mk.injEq] at hd
      rw [← hd.2]
      exact ⟨keysNodup_deleteWalk _ _ _ ih.1 ht2, nodup_keys_umErase _ _ ih.2⟩
  | autocomplete pre results _ ha ih =>
    rw [autocomplete_state _ _ _ _ ha]
    exact ⟨keysNodup_searchWalk _ _ ih.1, ih.2⟩
  | printAllEntries out _ hp ih =>
    rw [printAllEntries_state _ _ _ hp]
    exact ih

/-- Full enumeration on a reachable state without null children: `printAllEntries`
completes, leaves the state, writes a number on every line, and its lines are the entries
of `phoneNumbers`, each once. -/
theorem printAllEntries_exact (pb : Phonebook) (hr : Reachable pb)
    (hnf : pb.root.nullFree = true) :
    ∃ out, pb.printAllEntries = (out, some pb) ∧
      out.map Prod.fst = terminalPaths pb.root ∧
      out.Perm (pb.phoneNumbers.map (fun e => (e.1, some e.2))) := by
  have hc := consistent_of_reachable pb hr
  obtain ⟨hk, hpn⟩ := wellKeyed_of_reachable pb hr
  obtain ⟨hnd, hmem⟩ := terminalPaths_spec pb.root hk
  have hout := printAllEntriesHelper_eq pb.phoneNumbers pb.root [] [] hnf
  simp only [List.nil_append] at hout
  refine ⟨_, by unfold Phonebook.printAllEntries; rw [hout], ?_, ?_⟩
  · simp [Function.comp_def]
  · rw [List.perm_ext_iff_of_nodup]
    · rintro ⟨n, v⟩
      simp only [List.mem_map, Prod.mk.injEq, hmem, Prod.exists]
      constructor
      · rintro ⟨s, hs, rfl, rfl⟩
        have := hc s
        rw [hs] at this
        cases hf : umFind pb.phoneNumbers s with
        | none => simp [hf] at this
        | some w => exact ⟨s, w, (mem_iff_umFind _ _ _ hpn).2 hf, rfl, rfl⟩
      · rintro ⟨a, b, hab, rfl, rfl⟩
        have hf := (mem_iff_umFind _ _ _ hpn).1 hab
        refine ⟨a, ?_, rfl, hf⟩
        rw [← hc a, hf]; rfl
    · exact hnd.map (fun a b hab => (Prod.mk.inj hab).1)
    · apply List.Nodup.of_map Prod.fst
      simpa [Function.comp_def] using hpn

/-- Witness for `printAllEntries_exact` in the scenario directory. -/
theorem printAllEntries_exact_witness :
    ∃ out, annAnnaBob.printAllEntries = (out, some annAnnaBob) ∧
      out.map Prod.fst = terminalPaths annAnnaBob.root ∧
      out.Perm (annAnnaBob.phoneNumbers.map (fun e => (e.1, some e.2))) :=
  printAllEntries_exact annAnnaBob
    (Reachable.insert _ _ (Reachable.insert _ _ (Reachable.insert _ _ Reachable.new)))
    (by decide)

/-- In every state `autocomplete("")` is determined by `printAllEntries`: when the latter
completes, the former collects the names of the lines written, in the same order; when the
latter dereferences a null child, so does the former. -/
theorem autocomplete_nil_of_printAllEntries (pb : Phonebook) :
    pb.autocomplete [] =
      match pb.printAllEntries with
      | (out, some _) => some (out.map Prod.fst, pb)
      | (_, none) => none := by
  have h := printAllEntriesHelper_names pb.phoneNumbers pb.root [] []
  simp only [List.map_nil] at h
  rw [autocomplete_nil, h]
  unfold Phonebook.printAllEntries
  rcases printAllEntriesHelper pb.phoneNumbers pb.root [] [] with ⟨out, _ | _⟩ <;> simp

/-- Empty-prefix enumeration on a trie without null children: `printAllEntries` and
`autocomplete("")` both complete, leave the state, and the names collected are the names
of the lines written. -/
theorem autocomplete_nil_eq_printAllEntries (pb : Phonebook)
    (hnf : pb.root.nullFree = true) :
    ∃ out, pb.printAllEntries = (out, some pb) ∧
      pb.autocomplete [] = some (out.map Prod.fst, pb) := by
  have hout := printAllEntriesHelper_eq pb.phoneNumbers pb.root [] [] hnf
  have hp : pb.printAllEntries =
      ([] ++ (terminalPaths pb.root).map
        (fun s => ([] ++ s, umFind pb.phoneNumbers ([] ++ s))), some pb) := by
    unfold Phonebook.printAllEntries; rw [hout]
  refine ⟨_, hp, ?_⟩
  rw [autocomplete_nil_of_printAllEntries, hp]

/-- Witness for `autocomplete_nil_eq_printAllEntries` in the scenario directory. -/
theorem autocomplete_nil_eq_printAllEntries_witness :
    ∃ out, annAnnaBob.printAllEntries = (out, some annAnnaBob) ∧
      annAnnaBob.autocomplete [] = some (out.map Prod.fst, annAnnaBob) :=
  autocomplete_nil_eq_printAllEntries annAnnaBob (by decide)

/-! ## Node counts and skeletons -/

theorem nodeCount_new : nodeCount TrieNode.new = 1 := by
  simp [TrieNode.new, nodeCount, childrenCount]

theorem existingPrefixLen_new (name : Str) : existingPrefixLen TrieNode.new name = 0 := by
  cases name <;> simp [existingPrefixLen, TrieNode.new, umFind]

theorem existingPrefixLen_le (t : TrieNode) (name : Str) :
    existingPrefixLen t name ≤ name.length := by
  induction name generalizing t with
  | nil => simp [existingPrefixLen]
  | cons c cs ih =>
    obtain ⟨children, isEnd⟩ := t
    rcases hf : umFind children c with _ | (_ | n)
    · simp [existingPrefixLen, hf]
    · simp [existingPrefixLen, hf]
    · have := ih n
      simp only [existingPrefixLen, hf, List.length_cons]
      omega

/-- Rebinding a key: the nodes below the old binding go, those below the new one come. -/
theorem childrenCount_umAssign (ch : List (Char × Option TrieNode)) (c : Char)
    (x : TrieNode) :
    childrenCount (umAssign ch c (some x)) +
        (match umFind ch c with
          | some (some y) => nodeCount y
          | _ => 0) =
      childrenCount ch + nodeCount x := by
  induction ch with
  | nil => simp [umAssign, umFind, childrenCount]
  | cons hd tl ih =>
    obtain ⟨a, _ | y⟩ := hd
    · by_cases hac : a = c
      · simp [umAssign, umFind, hac, childrenCount]; omega
      · simp only [umAssign, umFind, hac, if_false, childrenCount]
        exact ih
    · by_cases hac : a = c
      · simp [umAssign, umFind, hac, childrenCount]; omega
      · simp only [umAssign, umFind, hac, if_false, childrenCount]
        omega

theorem childrenCount_append_none (ch : List (Char × Option TrieNode)) (c : Char) :
    childrenCount (ch ++ [(c, none)]) = childrenCount ch := by
  induction ch with
  | nil => simp [childrenCount]
  | cons hd tl ih =>
    obtain ⟨a, _ | y⟩ := hd <;> simp [childrenCount, ih]

/-- The count of `insert`: one new node per character past the existing part of the path. -/
theorem nodeCount_insertWalk (t : TrieNode) (name : Str) :
    nodeCount (insertWalk t name) =
      nodeCount t + (name.length - existingPrefixLen t name) := by
  induction name generalizing t with
  | nil =>
    obtain ⟨children, isEnd⟩ := t
    simp [insertWalk, nodeCount]
  | cons c cs ih =>
    obtain ⟨children, isEnd⟩ := t
    rw [insertWalk_cons]
    have hassign := childrenCount_umAssign children c
      (insertWalk (match umFind children c with
        | some (some n) => n
        | _ => TrieNode.new) cs)
    rcases hf : umFind children c with _ | (_ | n)
    · simp only [hf] at hassign ⊢
      rw [ih, nodeCount_new, existingPrefixLen_new] at hassign
      simp only [nodeCount, existingPrefixLen, hf, List.length_cons]
      omega
    · simp only [hf] at hassign ⊢
      rw [ih, nodeCount_new, existingPrefixLen_new] at hassign
      simp only [nodeCount, existingPrefixLen, hf, List.length_cons]
      omega
    · simp only [hf] at hassign ⊢
      rw [ih] at hassign
      have hle := existingPrefixLen_le n cs
      simp only [nodeCount, existingPrefixLen, hf, List.length_cons]
      omega

/-- The number `existingPrefixLen t name` is the length of the longest prefix of `name`
whose path exists in `t`. -/
theorem nodeAt_take_isSome_iff (t : TrieNode) (name : Str) (j : Nat)
    (hj : j ≤ name.length) :
    (nodeAt t (name.take j)).isSome = true ↔ j ≤ existingPrefixLen t name := by
  induction name generalizing t j with
  | nil =>
    simp only [List.length_nil, Nat.le_zero] at hj
    subst hj
    simp [nodeAt, existingPrefixLen]
  | cons c cs ih =>
    obtain ⟨children, isEnd⟩ := t
    cases j with
    | zero => simp [nodeAt]
    | succ i =>
      simp only [List.length_cons, Nat.add_le_add_iff_right] at hj
      rcases hf : umFind children c with _ | (_ | n)
      · simp [nodeAt, existingPrefixLen, hf]
      · simp [nodeAt, existingPrefixLen, hf]
      · simp only [List.take_succ_cons, nodeAt, existingPrefixLen, hf, ih n i hj]
        omega

/-- The walk of `insert` keeps every node and, away from the end of its path, every flag. -/
theorem nodeAt_insertWalk (t x : TrieNode) (name m : Str) (hx : nodeAt t m = some x) :
    ∃ x1, nodeAt (insertWalk t name) m = some x1 ∧
      (m ≠ name → x1.isEndOfWord = x.isEndOfWord) := by
  induction name generalizing t m with
  | nil =>
    obtain ⟨children, isEnd⟩ := t
    cases m with
    | nil => exact ⟨_, rfl, fun h => absurd rfl h⟩
    | cons d ds =>
      refine ⟨x, ?_, fun _ => rfl⟩
      simpa [insertWalk, nodeAt] using hx
  | cons c cs ih =>
    obtain ⟨children, isEnd⟩ := t
    rw [insertWalk_cons]
    cases m with
    | nil =>
      simp only [nodeAt, Option.some.injEq] at hx
      subst hx
      exact ⟨_, rfl, fun _ => rfl⟩
    | cons d ds =>
      simp only [nodeAt, umFind_umAssign]
      by_cases hcd : c = d
      · subst hcd
        rcases hf : umFind children c with _ | (_ | n)
        · simp [nodeAt, hf] at hx
        · simp [nodeAt, hf] at hx
        · simp only [nodeAt, hf] at hx
          obtain ⟨x1, hx1, hflag⟩ := ih n ds hx
          refine ⟨x1, by simpa using hx1, fun hne => hflag ?_⟩
          intro e
          exact hne (by rw [e])
      · simp only [hcd, if_false]
        refine ⟨x, by simpa [nodeAt] using hx, fun _ => rfl⟩

/-- After the walk of `insert` the whole path of the name exists and its end is terminal. -/
theorem nodeAt_insertWalk_self (t : TrieNode) (name : Str) :
    ∃ x, nodeAt (insertWalk t name) name = some x ∧ x.isEndOfWord = true := by
  apply nodeAt_isSome_of_isTerminalAt
  simp [isTerminalAt_insertWalk]

theorem childrenSkeleton_umAssign (ch : List (Char × Option TrieNode)) (c : Char)
    (x y : TrieNode) (hf : umFind ch c = some (some y)) (hxy : skeleton x = skeleton y) :
    childrenSkeleton (umAssign ch c (some x)) = childrenSkeleton ch := by
  induction ch with
  | nil => simp [umFind] at hf
  | cons hd tl ih =>
    obtain ⟨a, _ | z⟩ := hd
    · by_cases hac : a = c
      · simp [umFind, hac] at hf
      · simp only [umFind, hac, if_false] at hf
        simp [umAssign, hac, childrenSkeleton, ih hf]
    · by_cases hac : a = c
      · simp only [umFind, hac, if_true, Option.some.injEq] at hf
        subst hf
        simp [umAssign, hac, childrenSkeleton, hxy]
      · simp only [umFind, hac, if_false] at hf
        simp [umAssign, hac, childrenSkeleton, ih hf]

theorem childrenCount_childrenSkeleton_aux :
    ∀ (n : Nat) (t : TrieNode), sizeOf t ≤ n → nodeCount (skeleton t) = nodeCount t := by
  intro n
  induction n with
  | zero =>
    intro t h
    cases t
    simp at h
  | succ k ih =>
    intro t h
    obtain ⟨children, isEnd⟩ := t
    simp only [skeleton, nodeCount]
    congr 1
    have hs : sizeOf children ≤ k := by
      simp only [TrieNode.mk.sizeOf_spec] at h
      omega
    clear h
    induction children with
    | nil => simp [childrenSkeleton]
    | cons hd tl ihl =>
      obtain ⟨a, _ | z⟩ := hd
      · simp only [childrenSkeleton, childrenCount]
        apply ihl
        simp only [List.cons.sizeOf_spec] at hs
        omega
      · simp only [childrenSkeleton, childrenCount]
        simp only [List.cons.sizeOf_spec, Prod.mk.sizeOf_spec, Option.some.sizeOf_spec] at hs
        rw [ih z (by omega), ihl (by omega)]

/-- A trie and its skeleton have the same number of nodes. -/
theorem nodeCount_skeleton (t : TrieNode) : nodeCount (skeleton t) = nodeCount t :=
  childrenCount_childrenSkeleton_aux (sizeOf t) t (Nat.le_refl _)

/-- The walk of `deleteEntry` keeps the nodes, the maps, and every flag but the one at the
end of its path. -/
theorem deleteWalk_frame (t t2 : TrieNode) (name : Str)
    (hd : deleteWalk t name = some t2) :
    skeleton t2 = skeleton t ∧
      ∀ (m : Str) (x : TrieNode), nodeAt t m = some x →
        ∃ x2, nodeAt t2 m = some x2 ∧ x2.children.map Prod.fst = x.children.map Prod.fst ∧
          (m ≠ name → x2.isEndOfWord = x.isEndOfWord) := by
  induction name generalizing t t2 with
  | nil =>
    obtain ⟨children, isEnd⟩ := t
    simp only [deleteWalk, Option.some.injEq] at hd
    subst hd
    refine ⟨by simp [skeleton], fun m x hx => ?_⟩
    cases m with
    | nil =>
      simp only [nodeAt, Option.some.injEq] at hx
      subst hx
      exact ⟨_, rfl, rfl, fun h => absurd rfl h⟩
    | cons d ds => exact ⟨x, by simpa [nodeAt] using hx, rfl, fun _ => rfl⟩
  | cons c cs ih =>
    obtain ⟨children, isEnd⟩ := t
    rw [deleteWalk_cons] at hd
    rcases hf : umFind children c with _ | (_ | n)
    · simp [hf] at hd
    · simp [hf] at hd
    · simp only [hf, Option.map_eq_some'] at hd
      obtain ⟨n2, hn2, rfl⟩ := hd
      obtain ⟨hsk, hnodes⟩ := ih n n2 hn2
      refine ⟨by simp [skeleton, childrenSkeleton_umAssign _ _ _ _ hf hsk], fun m x hx => ?_⟩
      cases m with
      | nil =>
        simp only [nodeAt, Option.some.injEq] at hx
        subst hx
        refine ⟨_, rfl, ?_, fun _ => rfl⟩
        simp only [TrieNode.children, keys_umAssign]
        simp [mem_keys_of_umFind _ _ _ hf]
      | cons d ds =>
        simp only [nodeAt, umFind_umAssign]
        by_cases hcd : c = d
        · subst hcd
          simp only [nodeAt, hf] at hx
          obtain ⟨x2, hx2, hkeys, hflag⟩ := hnodes ds x hx
          refine ⟨x2, by simpa using hx2, hkeys, fun hne => hflag ?_⟩
          intro e
          exact hne (by rw [e])
        · simp only [hcd, if_false]
          exact ⟨x, by simpa [nodeAt] using hx, rfl, fun _ => rfl⟩

/-! ## Lemmas for the refinement of a plain map -/

theorem umErase_eq_filter {κ ν : Type} [DecidableEq κ] (m : List (κ × ν)) (k : κ) :
    umErase m k = m.filter (fun e => decide (e.1 ≠ k)) := by
  induction m with
  | nil => simp [umErase]
  | cons hd tl ih =>
    obtain ⟨a, b⟩ := hd
    by_cases hak : a = k <;> simp [umErase, hak, ih]

/-- In a consistent state `search` reports the binding of `phoneNumbers`. -/
theorem search_of_consistent (pb : Phonebook) (N : Str) (hc : Consistent pb) :
    (pb.search N).1 = (umFind pb.phoneNumbers N).isSome ∧
      (pb.search N).2.1 = umFind pb.phoneNumbers N := by
  have h := hc N
  rw [search_fst, search_number, ← h]
  refine ⟨rfl, ?_⟩
  cases hf : umFind pb.phoneNumbers N <;> simp

/-- In a consistent state `search` leaves `phoneNumbers`. -/
theorem search_phoneNumbers_of_consistent (pb : Phonebook) (N : Str) (hc : Consistent pb) :
    (pb.search N).2.2.phoneNumbers = pb.phoneNumbers := by
  rw [search_phoneNumbers]
  split
  · rename_i ht
    have h := hc N
    rw [ht] at h
    exact umIndex_of_isSome _ _ _ h
  · rfl

/-- The calls on a consistent Phonebook whose table agrees with a plain map give back what
the plain map gives back, and end in such a state. -/
theorem runOps_plainMapRun (ops : List Op) :
    ∀ (pb : Phonebook) (m : Str → Option Str), Consistent pb →
      (∀ N, umFind pb.phoneNumbers N = m N) →
      ∃ pb1, runOps pb ops = some ((plainMapRun m ops).1, pb1) ∧ Consistent pb1 ∧
        ∀ N, umFind pb1.phoneNumbers N = (plainMapRun m ops).2 N := by
  induction ops with
  | nil => intro pb m hc hm; exact ⟨pb, rfl, hc, hm⟩
  | cons op ops ih =>
    intro pb m hc hm
    cases op with
    | insert name number =>
      obtain ⟨pb1, hrun, hc1, hm1⟩ := ih (pb.insert name number)
        (fun k => if k = name then some number else m k) (consistent_insert _ _ _ hc)
        (by
          intro N
          simp only [Phonebook.insert, umFind_umAssign, hm N]
          by_cases hn : name = N
          · subst hn; simp
          · have : ¬ (N = name) := fun e => hn e.symm
            simp [hn, this])
      exact ⟨pb1, by simp [runOps, plainMapRun, hrun], hc1, hm1⟩
    | deleteEntry name =>
      cases ht : isTerminalAt pb.root name with
      | false =>
        have hde := deleteEntry_of_not_terminal pb name ht
        have hnone : m name = none := by
          have h := hc name
          rw [ht, hm name] at h
          cases hmn : m name with
          | none => rfl
          | some v => simp [hmn] at h
        obtain ⟨pb1, hrun, hc1, hm1⟩ := ih ⟨(searchWalk pb.root name).2, pb.phoneNumbers⟩
          (fun k => if k = name then none else m k)
          (consistent_deleteEntry _ _ _ _ hc hde)
          (by
            intro N
            by_cases hn : N = name
            · subst hn; simp [hm N, hnone]
            · simp [hn, hm N])
        exact ⟨pb1, by simp [runOps, plainMapRun, hde, hrun, hnone], hc1, hm1⟩
      | true =>
        obtain ⟨t2, ht2, hde⟩ := deleteEntry_of_terminal pb name ht
        have hsome : (m name).isSome = true := by
          have h := hc name
          rw [ht, hm name] at h
          exact h
        obtain ⟨pb1, hrun, hc1, hm1⟩ := ih ⟨t2, umErase pb.phoneNumbers name⟩
          (fun k => if k = name then none else m k)
          (consistent_deleteEntry _ _ _ _ hc hde)
          (by
            intro N
            simp only [umFind_umErase, hm N]
            by_cases hn : name = N
            · subst hn; simp
            · have : ¬ (N = name) := fun e => hn e.symm
              simp [hn, this])
        exact ⟨pb1, by simp [runOps, plainMapRun, hde, hrun, hsome], hc1, hm1⟩
    | search name =>
      obtain ⟨hfound, hnum⟩ := search_of_consistent pb name hc
      obtain ⟨pb1, hrun, hc1, hm1⟩ := ih (pb.search name).2.2 m
        (consistent_search _ _ hc)
        (by
          intro N
          rw [search_phoneNumbers_of_consistent pb name hc]
          exact hm N)
      exact ⟨pb1, by simp [runOps, plainMapRun, hrun, hfound, hnum, hm name], hc1, hm1⟩

/-! ## The claims -/

/-- C1: round trip, including overwrite. In every state (so in every state reachable from
the empty Phonebook), for every name `N` (the empty one included) and number `P`, after
`insert(N, P)` the call `search(N)` returns true and prints `P`; after `insert(N, P1)` then
`insert(N, P2)` it prints `P2`; and `insert("Alice","111")`, `insert("Alice","222")`,
`search("Alice")` gives `(true, "222")`. -/
theorem C1_insert_search_round_trip (pb : Phonebook) (N P P1 P2 : Str) :
    ((pb.insert N P).search N).1 = true ∧
    ((pb.insert N P).search N).2.1 = some P ∧
    (((pb.insert N P1).insert N P2).search N).1 = true ∧
    (((pb.insert N P1).insert N P2).search N).2.1 = some P2 ∧
    (((Phonebook.new.insert "Alice".toList "111".toList).insert "Alice".toList
        "222".toList).search "Alice".toList).1 = true ∧
    (((Phonebook.new.insert "Alice".toList "111".toList).insert "Alice".toList
        "222".toList).search "Alice".toList).2.1 = some "222".toList := by
  have key : ∀ (q : Phonebook) (n p : Str),
      ((q.insert n p).search n).1 = true ∧ ((q.insert n p).search n).2.1 = some p := by
    intro q n p
    have ht : isTerminalAt (q.insert n p).root n = true := by
      simp [Phonebook.insert, isTerminalAt_insertWalk]
    refine ⟨by rw [search_fst, ht], ?_⟩
    rw [search_number, ht]
    simp [Phonebook.insert, umFind_umAssign]
  exact ⟨(key pb N P).1, (key pb N P).2, (key _ N P2).1, (key _ N P2).2,
    (key _ _ _).1, (key _ _ _).2⟩

/-- C2 (fails on the code): after `insert("Ann","100")` and the unsuccessful
`search("Anx")`, which bind `'x'` to a null pointer in the `children` of the node of "An",
the name "Ann" is present and starts with "An", but `autocomplete("An")` collects no list:
`autocompleteHelper` dereferences the null child. -/
theorem C2_autocomplete_null_child :
    Reachable annAnx ∧
    (annAnx.search "Ann".toList).1 = true ∧
    (nodeAt annAnx.root "An".toList).map (fun x => x.children.map Prod.fst) =
      some ['n', 'x'] ∧
    (nodeAt annAnx.root "An".toList).map (fun x => umFind x.children 'x') =
      some (some none) ∧
    annAnx.autocomplete "An".toList = none :=
  ⟨Reachable.search _ (Reachable.insert _ _ Reachable.new), by decide, by decide, rfl, rfl⟩

/-- C3 (fails on the code): `search("a")` on the empty Phonebook returns false, and the
root's `children`, empty before the call, afterwards holds the key `'a'` bound to a null
pointer: the lookup `current->children[c]` has inserted it. -/
theorem C3_search_miss_inserts_null_child :
    (Phonebook.new.search ['a']).1 = false ∧
    Phonebook.new.root.children = [] ∧
    (Phonebook.new.search ['a']).2.2.root.children = [('a', none)] ∧
    (Phonebook.new.search ['a']).2.2.root ≠ Phonebook.new.root := by
  refine ⟨rfl, rfl, rfl, ?_⟩
  intro h
  have h2 := congrArg TrieNode.children h
  simp [Phonebook.search, Phonebook.new, TrieNode.new, searchWalk, umIndex, umFind,
    TrieNode.children] at h2

/-- C4: successful delete. For every state and name `N` that `search` finds,
`deleteEntry(N)` returns true, and in the resulting state the final node of the path of `N`
is not terminal, `phoneNumbers` has no entry for `N`, and `search(N)` returns false. -/
theorem C4_deleteEntry_found (pb : Phonebook) (N : Str) (h : (pb.search N).1 = true) :
    ∃ pb1, pb.deleteEntry N = some (true, pb1) ∧
      (∃ x, nodeAt pb1.root N = some x ∧ x.isEndOfWord = false) ∧
      umFind pb1.phoneNumbers N = none ∧
      (pb1.search N).1 = false := by
  rw [search_fst] at h
  obtain ⟨t2, ht2, hde⟩ := deleteEntry_of_terminal pb N h
  obtain ⟨t3, ht3, hx, hm⟩ := deleteWalk_of_isTerminalAt pb.root N h
  rw [ht2] at ht3
  cases ht3
  refine ⟨_, hde, hx, ?_, ?_⟩
  · simp [umFind_umErase]
  · rw [search_fst]
    simp [hm]

/-- Witness for C4 at "Ann" in the scenario directory. -/
theorem C4_deleteEntry_found_witness :
    (annAnnaBob.search "Ann".toList).1 = true ∧
    ∃ pb1, annAnnaBob.deleteEntry "Ann".toList = some (true, pb1) ∧
      (∃ x, nodeAt pb1.root "Ann".toList = some x ∧ x.isEndOfWord = false) ∧
      umFind pb1.phoneNumbers "Ann".toList = none ∧
      (pb1.search "Ann".toList).1 = false :=
  ⟨by decide, C4_deleteEntry_found annAnnaBob "Ann".toList (by decide)⟩

/-- C5 (fails on the code): on the directory holding only "Alice" and "Bob", `search("Zed")`
finds nothing and `deleteEntry("Zed")` returns false, but the root's `children`, which had
the keys `'A'` and `'B'`, afterwards has the keys `'A'`, `'B'` and `'Z'`, the last bound to a
null pointer. -/
theorem C5_deleteEntry_absent_inserts_null_child :
    (aliceBob.search "Zed".toList).1 = false ∧
    (aliceBob.deleteEntry "Zed".toList).map Prod.fst = some false ∧
    aliceBob.root.children.map Prod.fst = ['A', 'B'] ∧
    (aliceBob.deleteEntry "Zed".toList).map (fun r => r.2.root.children.map Prod.fst) =
      some ['A', 'B', 'Z'] ∧
    (aliceBob.deleteEntry "Zed".toList).map (fun r => umFind r.2.root.children 'Z') =
      some (some none) ∧
    umFind aliceBob.root.children 'Z' = none := by
  refine ⟨by decide, by decide, by decide, by decide, ?_, ?_⟩ <;> rfl

/-- C6: delete idempotence. For every state and every name `N`, the first `deleteEntry(N)`
completes, and a second `deleteEntry(N)` right after it returns false and leaves the state
of the first call. -/
theorem C6_deleteEntry_idempotent (pb : Phonebook) (N : Str) :
    ∃ r pb1, pb.deleteEntry N = some (r, pb1) ∧ pb1.deleteEntry N = some (false, pb1) := by
  cases ht : isTerminalAt pb.root N with
  | false =>
    refine ⟨false, _, deleteEntry_of_not_terminal pb N ht, ?_⟩
    rw [deleteEntry_of_not_terminal]
    · simp only [searchWalk_snd_idem]
    · simp only [isTerminalAt_searchWalk, ht]
  | true =>
    obtain ⟨t2, ht2, hde⟩ := deleteEntry_of_terminal pb N ht
    obtain ⟨t3, ht3, ⟨x, hx, -⟩, hm⟩ := deleteWalk_of_isTerminalAt pb.root N ht
    rw [ht2] at ht3
    cases ht3
    refine ⟨true, _, hde, ?_⟩
    rw [deleteEntry_of_not_terminal]
    · simp only [searchWalk_snd_of_nodeAt _ _ x hx]
    · simp [hm]

/-- C7: terminal flag / numbers consistency. In every state reachable from the empty
Phonebook by `insert`, `search`, `deleteEntry`, `autocomplete` and `printAllEntries`, a name
`N` has an entry in `phoneNumbers` iff the path spelling `N` exists in the trie and its
final node has `isEndOfWord` set. -/
theorem C7_terminal_iff_number (pb : Phonebook) (h : Reachable pb) (N : Str) :
    (∃ P, umFind pb.phoneNumbers N = some P) ↔
      (∃ x, nodeAt pb.root N = some x ∧ x.isEndOfWord = true) := by
  have hc := consistent_of_reachable pb h N
  constructor
  · rintro ⟨P, hP⟩
    apply nodeAt_isSome_of_isTerminalAt
    rw [← hc, hP]; rfl
  · rintro ⟨x, hx, hxe⟩
    have : isTerminalAt pb.root N = true := by simp [isTerminalAt, hx, hxe]
    rw [this] at hc
    cases hf : umFind pb.phoneNumbers N with
    | none => simp [hf] at hc
    | some P => exact ⟨P, rfl⟩

/-- Witness for C7 in the state after `insert("Ann","100")` and `search("Anx")`, at the
name "Ann". -/
theorem C7_terminal_iff_number_witness :
    Reachable ((Phonebook.new.insert "Ann".toList "100".toList).search "Anx".toList).2.2 ∧
    ((∃ P, umFind ((Phonebook.new.insert "Ann".toList "100".toList).search
        "Anx".toList).2.2.phoneNumbers "Ann".toList = some P) ↔
      (∃ x, nodeAt ((Phonebook.new.insert "Ann".toList "100".toList).search
        "Anx".toList).2.2.root "Ann".toList = some x ∧ x.isEndOfWord = true)) :=
  ⟨Reachable.search _ (Reachable.insert _ _ Reachable.new),
    C7_terminal_iff_number _ (Reachable.search _ (Reachable.insert _ _ Reachable.new)) _⟩

/-- C8 (fails on the code): the state after `insert("A","1")` and the unsuccessful
`search("AB")` is reachable; the node of "A" is terminal and binds `'B'` to a null pointer.
There `printAllEntries` writes the line of "A" and then dereferences the null child, while
`autocomplete("")` dereferences it inside `autocompleteHelper`, before anything is printed:
the one emits the name "A", the other yields no names. -/
theorem C8_printAllEntries_writes_autocomplete_yields_nothing :
    Reachable aThenAB ∧
    isTerminalAt aThenAB.root "A".toList = true ∧
    aThenAB.root.children.map Prod.fst = ['A'] ∧
    (nodeAt aThenAB.root "A".toList).map (fun x => x.children) = some [('B', none)] ∧
    aThenAB.printAllEntries = ([("A".toList, some "1".toList)], none) ∧
    aThenAB.autocomplete [] = none :=
  ⟨Reachable.search _ (Reachable.insert _ _ Reachable.new), by decide, by decide, rfl, rfl,
    rfl⟩

/-- C9 (fails on the code): the state after `insert("Ann","100")` and the unsuccessful
`search("Anx")` is reachable and holds the entry ("Ann","100"), whose node is terminal, yet
`printAllEntries` does not complete: `printAllEntriesHelper` dereferences the null child
that the search bound to `'x'`. -/
theorem C9_printAllEntries_null_child :
    Reachable annAnx ∧
    annAnx.phoneNumbers = [("Ann".toList, "100".toList)] ∧
    isTerminalAt annAnx.root "Ann".toList = true ∧
    annAnx.printAllEntries.2 = none :=
  ⟨Reachable.search _ (Reachable.insert _ _ Reachable.new), rfl, by decide, rfl⟩

/-- C10: delete leaves other names untouched. For every state and all names `N` and `M`
with `M` different from `N`, `deleteEntry(N)` completes, and `search(M)` afterwards returns
the same value and prints the same number as `search(M)` before, whether or not `N` was
present. -/
theorem C10_deleteEntry_frame (pb : Phonebook) (N M : Str) (h : M ≠ N) :
    ∃ r pb1, pb.deleteEntry N = some (r, pb1) ∧
      (pb1.search M).1 = (pb.search M).1 ∧ (pb1.search M).2.1 = (pb.search M).2.1 := by
  have hne : ¬ (N = M) := fun e => h e.symm
  cases ht : isTerminalAt pb.root N with
  | false =>
    refine ⟨false, _, deleteEntry_of_not_terminal pb N ht, ?_, ?_⟩
    · simp only [search_fst, isTerminalAt_searchWalk]
    · simp only [search_number, isTerminalAt_searchWalk]
  | true =>
    obtain ⟨t2, ht2, hde⟩ := deleteEntry_of_terminal pb N ht
    obtain ⟨t3, ht3, -, hm⟩ := deleteWalk_of_isTerminalAt pb.root N ht
    rw [ht2] at ht3
    cases ht3
    refine ⟨true, _, hde, ?_, ?_⟩
    · simp [search_fst, hm, h]
    · simp [search_number, hm, h, umFind_umErase, hne]

/-- Witness for C10, the concrete scenario: deleting "Ann" from the directory holding "Ann",
"Anna" and "Bob" leaves `search("Anna")`; afterwards `autocomplete("An")` collects exactly
"Anna" and `search("Ann")` returns false. -/
theorem C10_deleteEntry_frame_witness :
    "Anna".toList ≠ "Ann".toList ∧
    (∃ r pb1, annAnnaBob.deleteEntry "Ann".toList = some (r, pb1) ∧
      (pb1.search "Anna".toList).1 = (annAnnaBob.search "Anna".toList).1 ∧
      (pb1.search "Anna".toList).2.1 = (annAnnaBob.search "Anna".toList).2.1) ∧
    (annAnnaBob.autocomplete "An".toList).map Prod.fst =
      some ["Ann".toList, "Anna".toList] ∧
    (annAnnaBob.deleteEntry "Ann".toList).map Prod.fst = some true ∧
    (annAnnaBob.deleteEntry "Ann".toList).map
      (fun r => (r.2.autocomplete "An".toList).map Prod.fst) = some (some ["Anna".toList]) ∧
    (annAnnaBob.deleteEntry "Ann".toList).map (fun r => (r.2.search "Ann".toList).1) =
      some false :=
  ⟨by decide, C10_deleteEntry_frame annAnnaBob "Ann".toList "Anna".toList (by decide),
    rfl, rfl, rfl, rfl⟩

/-- C11 (fails on the code): in the directory holding "Ann", "Anna" and "Bob",
`autocomplete("Ax")` finds no edge `'x'` below the node of "A" and returns with nothing
collected, but the `children` of that node, which had the key `'n'` only, afterwards has
`'n'` and `'x'`, the latter bound to a null pointer: the test `current->children[c]` has
inserted it, and the state after the call is not the state before. -/
theorem C11_autocomplete_miss_inserts_null_child :
    ∃ pb1, annAnnaBob.autocomplete "Ax".toList = some ([], pb1) ∧
      (nodeAt annAnnaBob.root ['A']).map (fun x => x.children.map Prod.fst) = some ['n'] ∧
      (nodeAt pb1.root ['A']).map (fun x => x.children.map Prod.fst) = some ['n', 'x'] ∧
      (nodeAt pb1.root ['A']).map (fun x => umFind x.children 'x') = some (some none) ∧
      pb1 ≠ annAnnaBob := by
  refine ⟨_, rfl, by decide, by decide, rfl, ?_⟩
  intro h
  have h2 := congrArg
    (fun p : Phonebook => (nodeAt p.root ['A']).map (fun x => x.children.map Prod.fst)) h
  revert h2
  decide

/-- C12 (fails on the code): the state after `search("a")` on the empty Phonebook is
reachable, its root binds `'a'` to a null pointer, and both `autocomplete("")` and
`printAllEntries` dereference that pointer. -/
theorem C12_reachable_null_child_dereferenced :
    Reachable (Phonebook.new.search ['a']).2.2 ∧
    umFind (Phonebook.new.search ['a']).2.2.root.children 'a' = some none ∧
    (Phonebook.new.search ['a']).2.2.root.nullFree = false ∧
    (Phonebook.new.search ['a']).2.2.autocomplete [] = none ∧
    (Phonebook.new.search ['a']).2.2.printAllEntries = ([], none) :=
  ⟨Reachable.search _ Reachable.new, rfl, rfl, rfl, rfl⟩

/-- C13: delete never removes nodes. For every state and name `N` that `search` finds,
`deleteEntry(N)` returns true and afterwards the trie has the same nodes with the same
`children` maps (the same skeleton, the same number of nodes, every path that led to a node
still leads to one with the same keys), every node other than the one at the end of the
path of `N` has its terminal flag as before, and `phoneNumbers` is the table before without
the entry for `N`. -/
theorem C13_deleteEntry_keeps_nodes (pb : Phonebook) (N : Str)
    (h : (pb.search N).1 = true) :
    ∃ pb1, pb.deleteEntry N = some (true, pb1) ∧
      skeleton pb1.root = skeleton pb.root ∧
      nodeCount pb1.root = nodeCount pb.root ∧
      (∀ (m : Str) (x : TrieNode), nodeAt pb.root m = some x →
        ∃ x2, nodeAt pb1.root m = some x2 ∧
          x2.children.map Prod.fst = x.children.map Prod.fst ∧
          (m ≠ N → x2.isEndOfWord = x.isEndOfWord)) ∧
      pb1.phoneNumbers = pb.phoneNumbers.filter (fun e => decide (e.1 ≠ N)) ∧
      (∀ M, M ≠ N → umFind pb1.phoneNumbers M = umFind pb.phoneNumbers M) ∧
      umFind pb1.phoneNumbers N = none := by
  rw [search_fst] at h
  obtain ⟨t2, ht2, hde⟩ := deleteEntry_of_terminal pb N h
  obtain ⟨hsk, hnodes⟩ := deleteWalk_frame pb.root t2 N ht2
  refine ⟨_, hde, hsk, ?_, hnodes, umErase_eq_filter _ _, ?_, ?_⟩
  · have h1 := nodeCount_skeleton t2
    rw [hsk, nodeCount_skeleton] at h1
    exact h1.symm
  · intro M hM
    have : ¬ (N = M) := fun e => hM e.symm
    simp [umFind_umErase, this]
  · simp [umFind_umErase]

/-- Witness for C13 at "Ann" in the scenario directory. -/
theorem C13_deleteEntry_keeps_nodes_witness :
    (annAnnaBob.search "Ann".toList).1 = true ∧
    ∃ pb1, annAnnaBob.deleteEntry "Ann".toList = some (true, pb1) ∧
      skeleton pb1.root = skeleton annAnnaBob.root ∧
      nodeCount pb1.root = nodeCount annAnnaBob.root ∧
      (∀ (m : Str) (x : TrieNode), nodeAt annAnnaBob.root m = some x →
        ∃ x2, nodeAt pb1.root m = some x2 ∧
          x2.children.map Prod.fst = x.children.map Prod.fst ∧
          (m ≠ "Ann".toList → x2.isEndOfWord = x.isEndOfWord)) ∧
      pb1.phoneNumbers = annAnnaBob.phoneNumbers.filter (fun e => decide (e.1 ≠ "Ann".toList)) ∧
      (∀ M, M ≠ "Ann".toList → umFind pb1.phoneNumbers M = umFind annAnnaBob.phoneNumbers M) ∧
      umFind pb1.phoneNumbers "Ann".toList = none :=
  ⟨by decide, C13_deleteEntry_keeps_nodes annAnnaBob "Ann".toList (by decide)⟩

/-- C14: lazy node creation on insert. For every state, name `N` and number `P`,
`insert(N, P)` makes the trie larger by exactly `|N| - k` nodes, where `k` is the length of
the longest prefix of `N` whose path exists through actual nodes; every path that led to a
node still leads to one, with its terminal flag as before unless the path is `N`; the node
at `N` is terminal and no other name changes between terminal and not; `phoneNumbers` binds
`N` to `P` and every other name as before; and when the path of `N` exists no node is
created. -/
theorem C14_insert_creates_missing_nodes (pb : Phonebook) (N P : Str) :
    nodeCount (pb.insert N P).root =
      nodeCount pb.root + (N.length - existingPrefixLen pb.root N) ∧
    existingPrefixLen pb.root N ≤ N.length ∧
    (∀ j, j ≤ N.length →
      ((nodeAt pb.root (N.take j)).isSome = true ↔ j ≤ existingPrefixLen pb.root N)) ∧
    (∀ (m : Str) (x : TrieNode), nodeAt pb.root m = some x →
      ∃ x1, nodeAt (pb.insert N P).root m = some x1 ∧
        (m ≠ N → x1.isEndOfWord = x.isEndOfWord)) ∧
    (∃ x, nodeAt (pb.insert N P).root N = some x ∧ x.isEndOfWord = true) ∧
    (∀ M, M ≠ N → isTerminalAt (pb.insert N P).root M = isTerminalAt pb.root M) ∧
    (∀ M, M ≠ N → umFind (pb.insert N P).phoneNumbers M = umFind pb.phoneNumbers M) ∧
    umFind (pb.insert N P).phoneNumbers N = some P ∧
    ((nodeAt pb.root N).isSome = true →
      nodeCount (pb.insert N P).root = nodeCount pb.root) := by
  have hcount := nodeCount_insertWalk pb.root N
  have hle := existingPrefixLen_le pb.root N
  refine ⟨hcount, hle, fun j hj => nodeAt_take_isSome_iff _ _ _ hj,
    fun m x hx => nodeAt_insertWalk _ _ N m hx, nodeAt_insertWalk_self _ _, ?_, ?_, ?_, ?_⟩
  · intro M hM
    simp [Phonebook.insert, isTerminalAt_insertWalk, hM]
  · intro M hM
    have : ¬ (N = M) := fun e => hM e.symm
    simp [Phonebook.insert, umFind_umAssign, this]
  · simp [Phonebook.insert, umFind_umAssign]
  · intro hex
    have hk := (nodeAt_take_isSome_iff pb.root N N.length (Nat.le_refl _)).1
      (by simpa using hex)
    show nodeCount (insertWalk pb.root N) = nodeCount pb.root
    omega

/-- C15: the Phonebook refines a plain finite map. For every finite sequence of `insert`,
`deleteEntry` and `search` calls on the empty Phonebook, every call completes and gives
back what the plain map gives back (each `deleteEntry` returns true exactly when the map
held the key, each `search` returns true with the number the map holds, false when it holds
none), and at the end `search(N)` returns true with number `P` exactly when the map binds
`N` to `P`, and false exactly when the map has no entry for `N`. -/
theorem C15_refines_plain_map (ops : List Op) :
    ∃ pb, runOps Phonebook.new ops = some ((plainMapRun (fun _ => none) ops).1, pb) ∧
      ∀ N, (pb.search N).1 = ((plainMapRun (fun _ => none) ops).2 N).isSome ∧
        (pb.search N).2.1 = (plainMapRun (fun _ => none) ops).2 N := by
  obtain ⟨pb, hrun, hc, hm⟩ := runOps_plainMapRun ops Phonebook.new (fun _ => none)
    consistent_new (fun N => by simp [Phonebook.new, umFind])
  refine ⟨pb, hrun, fun N => ?_⟩
  obtain ⟨h1, h2⟩ := search_of_consistent pb N hc
  rw [h1, h2, hm N]
  exact ⟨rfl, rfl⟩

/-- C16: a successful lookup is read-only. In every state reachable from the empty
Phonebook, for every name `N` for which `search(N)` returns true, the state after
`search(N)` is the state before it: `phoneNumbers` has an entry for `N`, so the subscript
`phoneNumbers[name]` inserts nothing. -/
theorem C16_search_found_read_only (pb : Phonebook) (hr : Reachable pb) (N : Str)
    (h : (pb.search N).1 = true) :
    (pb.search N).2.2 = pb ∧
    (umFind pb.phoneNumbers N).isSome = true ∧
    (umIndex pb.phoneNumbers N []).2 = pb.phoneNumbers := by
  have hc := consistent_of_reachable pb hr
  rw [search_fst] at h
  have hsome : (umFind pb.phoneNumbers N).isSome = true := by rw [hc N, h]
  obtain ⟨x, hx, -⟩ := nodeAt_isSome_of_isTerminalAt pb.root N h
  refine ⟨?_, hsome, umIndex_of_isSome _ _ _ hsome⟩
  have h1 := search_root pb N
  have h2 := search_phoneNumbers_of_consistent pb N hc
  rw [searchWalk_snd_of_nodeAt _ _ x hx] at h1
  cases hs : (pb.search N).2.2 with
  | mk r p =>
    rw [hs] at h1 h2
    cases pb
    simp only at h1 h2
    rw [h1, h2]

/-- Witness for C16 at "Anna" in the scenario directory. -/
theorem C16_search_found_read_only_witness :
    Reachable annAnnaBob ∧ (annAnnaBob.search "Anna".toList).1 = true ∧
    ((annAnnaBob.search "Anna".toList).2.2 = annAnnaBob ∧
      (umFind annAnnaBob.phoneNumbers "Anna".toList).isSome = true ∧
      (umIndex annAnnaBob.phoneNumbers "Anna".toList []).2 = annAnnaBob.phoneNumbers) :=
  ⟨Reachable.insert _ _ (Reachable.insert _ _ (Reachable.insert _ _ Reachable.new)),
    by decide,
    C16_search_found_read_only annAnnaBob
      (Reachable.insert _ _ (Reachable.insert _ _ (Reachable.insert _ _ Reachable.new)))
      "Anna".toList (by decide)⟩

end TriePhonebook
